import Mathlib

/-!
# Verification of the blobexplorer in-memory indexing and query engine

This file gives a shallow embedding, in Lean 4, of the core data model and
algorithms of `site/app.js` from the blobexplorer repository: the folder-tree
index (`buildFolderTree`), the record filter (`filterDownloads`), file-type
classification (`getFileExtension` / `getFileTypeInfo`), search matching
(`matchesSearch`, `wildcardToRegex`), folder pruning
(`folderHasMatchingFiles`), browse/search result assembly
(`displayDownloads` / `renderSearchResults`), pagination, page navigation,
and the favorites helper `matchFolders`.

JavaScript strings are modelled as Lean `String` (a list of unicode scalar
values); `Array` and insertion-ordered `Map` / `Set` are modelled as Lean
lists (association lists for `Map`, duplicate-free lists for `Set`).
JavaScript `RegExp` (always constructed with the `'i'` flag in this code) is
modelled by a small executable regular-expression engine covering the
constructs the application builds: literals, escapes, `.`, `*`, `+`, `?`,
`|`, `(...)` and `(?:...)` groups, `[...]` classes, and the `^` / `$`
anchors.  Compilation failure (a thrown `SyntaxError` in JavaScript) is
modelled by `Option`.

Numeric record sizes are modelled as `Nat` (the spec requires non-negative
integer byte counts) and `lastModified` timestamps as `Int` (the instant a
parsed `Date` denotes, which is all the comparators observe).
-/

set_option maxHeartbeats 1000000

namespace BlobExplorer

/-! ## JavaScript string primitives on `List Char` -/

/-- The segment decomposition behind JavaScript `s.split('/')`:
`""` splits to `[""]`, separators at the ends produce empty segments. -/
def splitSlashAux : List Char → List (List Char)
  | [] => [[]]
  | c :: cs =>
    match splitSlashAux cs with
    | [] => [[]]
    | seg :: rest => if c = '/' then [] :: seg :: rest else (c :: seg) :: rest

/-- JavaScript `s.split('/')`. -/
def jsSplit (s : String) : List String :=
  (splitSlashAux s.data).map (fun l => ⟨l⟩)

/-- JavaScript `parts.join('/')`. -/
def joinSlash : List String → String
  | [] => ""
  | [s] => s
  | s :: t :: rest => s ++ "/" ++ joinSlash (t :: rest)

/-- The path-combination idiom `parent ? parent + '/' + child : child`
used throughout `app.js`. -/
def joinKey (parent child : String) : String :=
  if parent = "" then child else parent ++ "/" ++ child

/-- Bool-valued list prefix test (JavaScript-style structural scan). -/
def isPfxOf [DecidableEq α] : List α → List α → Bool
  | [], _ => true
  | _ :: _, [] => false
  | a :: as, b :: bs => a = b && isPfxOf as bs

/-- Bool-valued contiguous-sublist search; `subSearch n h` is JavaScript
`h.includes(n)` read on the underlying character lists. -/
def subSearch [DecidableEq α] (needle : List α) : List α → Bool
  | [] => isPfxOf needle []
  | b :: bs => isPfxOf needle (b :: bs) || subSearch needle bs

/-- JavaScript `text.includes(searchTerm)`. -/
def strIncludes (text searchTerm : String) : Bool :=
  subSearch searchTerm.data text.data

/-- JavaScript `s.startsWith(c)` for a single-character argument. -/
def headIs (s : String) (c : Char) : Bool :=
  s.data.head? = some c

/-- JavaScript `s.slice(1)`. -/
def strDrop1 (s : String) : String := ⟨s.data.drop 1⟩

/-- JavaScript `s.includes(c)` for a single character. -/
def strContainsChar (s : String) (c : Char) : Bool :=
  s.data.any (fun d => d = c)

/-- The characters matched by the JavaScript regular-expression class `\s`
(ASCII whitespace plus no-break space, BOM and the unicode spaces; the
exotic code points never occur in the verified inputs). -/
def jsIsSpace (c : Char) : Bool :=
  c = ' ' || c = '\t' || c = '\n' || c = '\r' || c = '\x0b' || c = '\x0c' ||
  c = '\u00a0' || c = '\ufeff' || c = '\u1680' || c = '\u2028' || c = '\u2029' ||
  c = '\u202f' || c = '\u205f' || c = '\u3000' ||
  (0x2000 ≤ c.toNat && c.toNat ≤ 0x200a)

/-- JavaScript `s.replace(/\s/g, '')`. -/
def stripSpaces (s : String) : String :=
  ⟨s.data.filter (fun c => !jsIsSpace c)⟩

/-- JavaScript `s.toLowerCase()` (modelled on basic-latin letters, the only
case-carrying characters in the verified inputs). -/
def strLower (s : String) : String := ⟨s.data.map Char.toLower⟩

/-- JavaScript `s.toUpperCase()` (modelled on basic-latin letters). -/
def strUpper (s : String) : String := ⟨s.data.map Char.toUpper⟩

/-- JavaScript `s.substring(0, n)`. -/
def strTake (s : String) (n : Nat) : String := ⟨s.data.take n⟩

/-! ## Pagination (`renderSearchResults` / `displayDownloads` lines 1371-1378
and 1485-1494 of `app.js`) -/

/-- `const itemsPerPage = 100`. -/
def itemsPerPage : Nat := 100

/-- `Math.ceil(totalItems / itemsPerPage)`. -/
def totalPagesOf (totalItems : Nat) : Nat :=
  (totalItems + (itemsPerPage - 1)) / itemsPerPage

/-- The page slice computed by both render paths:
`startIdx = (currentPage - 1) * itemsPerPage`,
`endIdx = Math.min(startIdx + itemsPerPage, totalItems)`,
`pageItems = items.slice(startIdx, endIdx)` (modelled for the 1-based page
numbers the application uses). -/
def pageSlice (items : List α) (currentPage : Nat) : List α :=
  let totalItems := items.length
  let startIdx := (currentPage - 1) * itemsPerPage
  let endIdx := min (startIdx + itemsPerPage) totalItems
  (items.drop startIdx).take (endIdx - startIdx)

/-! ## Page navigation (`nextPage` / `prevPage` / `lastPage`,
lines 1602-1628 of `app.js`).  `getCurrentViewItemCount()` is abstracted as
the `totalItems` argument. -/

/-- `function nextPage()` (the JS binds `totalPages` locally before the
comparison). -/
def nextPage (currentPage totalItems : Nat) : Nat :=
  if currentPage < totalPagesOf totalItems then currentPage + 1 else currentPage

/-- `function prevPage()`. -/
def prevPage (currentPage : Nat) : Nat :=
  if 1 < currentPage then currentPage - 1 else currentPage

/-- `function lastPage()`: sets the page to `Math.ceil(totalItems / 100)`
with no lower clamp. -/
def lastPage (totalItems : Nat) : Nat :=
  totalPagesOf totalItems

/-! ## Records and file-type classification (`getFileExtension` /
`getFileTypeInfo`, app.js 447-508) -/

/-- One storage-object record, with the JSON field names used by `app.js`
(`download.Name`, `download.Url`, `download.Length`, `download.LastModified`,
`download.ContentType`).  `LastModified` is modelled as the instant the
parsed `Date` denotes, which is all the comparators observe. -/
structure Download where
  Name : String
  Url : String
  Length : Nat
  LastModified : Int
  ContentType : String
deriving DecidableEq

/-- The derived type info: display name (the type label) and color hint.
The `icon` field of the source objects is an inline SVG markup string used
only for presentation and is not modelled. -/
structure FileTypeInfo where
  name : String
  color : String
deriving DecidableEq

/-- One character of the class `[^./?#]` in `getFileExtension`. -/
def extRunChar (c : Char) : Bool :=
  !(c = '.' || c = '/' || c = '?' || c = '#')

/-- Leftmost match of `/\.([^./?#]+)(?:[?#]|$)/` (the regex of
`getFileExtension`): at each `.` the candidate is the maximal run of
`[^./?#]` characters after it; the greedy group succeeds exactly when that
run is non-empty and is followed by `?`, `#` or the end of input (any
shorter, backtracked run would be followed by another run character, which
`(?:[?#]|$)` rejects), so the regex is equivalent to this scan. -/
def extScan : List Char → Option (List Char)
  | [] => none
  | c :: rest =>
    if c = '.' then
      let run := rest.takeWhile extRunChar
      let after := rest.dropWhile extRunChar
      if run ≠ [] ∧ (after = [] ∨ after.head? = some '?' ∨ after.head? = some '#')
      then some run
      else extScan rest
    else extScan rest

/-- `function getFileExtension(url)` (app.js 447-450): the matched group,
lowercased, or the literal marker `'unknown'` when the regex does not
match. -/
def getFileExtension (url : String) : String :=
  match extScan url.data with
  | some run => ⟨run.map Char.toLower⟩
  | none => "unknown"

/-- The extension → type-info table of `getFileTypeInfo` (app.js 480-500). -/
def typeMap : List (String × FileTypeInfo) :=
  [("pdf", ⟨"PDF", "#d32f2f"⟩),
   ("zip", ⟨"ZIP", "#ff9800"⟩),
   ("htm", ⟨"HTML", "#1976d2"⟩),
   ("html", ⟨"HTML", "#1976d2"⟩),
   ("txt", ⟨"Text", "#666"⟩),
   ("exe", ⟨"Installer", "#00897b"⟩),
   ("msi", ⟨"Installer", "#00897b"⟩),
   ("iso", ⟨"ISO", "#5e35b1"⟩),
   ("xml", ⟨"XML", "#f57c00"⟩),
   ("json", ⟨"JSON", "#388e3c"⟩),
   ("dll", ⟨"DLL", "#455a64"⟩),
   ("cer", ⟨"Certificate", "#c62828"⟩),
   ("jpg", ⟨"Image", "#e91e63"⟩),
   ("jpeg", ⟨"Image", "#e91e63"⟩),
   ("png", ⟨"Image", "#e91e63"⟩),
   ("gif", ⟨"Image", "#e91e63"⟩),
   ("doc", ⟨"Word", "#1565c0"⟩),
   ("docx", ⟨"Word", "#1565c0"⟩),
   ("db", ⟨"Database", "#6d4c41"⟩)]

/-- Own-key lookup in the `typeMap` object literal. -/
def lookupType (ext : String) : Option FileTypeInfo :=
  (typeMap.find? (fun kv => kv.1 == ext)).map (fun kv => kv.2)

/-- A `typeMap[ext]` value as its callers observe it (the `name` and
`color` properties); `none` in a field models JavaScript `undefined`. -/
structure JSTypeValue where
  name : Option String
  color : Option String
deriving DecidableEq

/-- The JS property access `typeMap[ext]` (app.js 502): an own key of the
object literal, else the prototype chain.  The extension is always
lowercase (`getFileExtension` lowercases the capture) and property names
are case-sensitive, so of the `Object.prototype` members exactly
`constructor` (the inherited `Object` constructor function: truthy, its
`name` is `"Object"`, it has no `color`) and `__proto__` (the inherited
accessor returning `Object.prototype` itself: truthy, with neither
`name` nor `color`) are reachable; every other non-own key reads
`undefined` (falsy, `none` here). -/
def typeMapGet (ext : String) : Option JSTypeValue :=
  match lookupType ext with
  | some info => some ⟨some info.name, some info.color⟩
  | none =>
    if ext = "constructor" then some ⟨some "Object", none⟩
    else if ext = "__proto__" then some ⟨none, none⟩
    else none

/-- `function getFileTypeInfo(download)` (app.js 453-508):
`typeMap[ext] || { icon: icons.file, name: ext.toUpperCase(), color: '#757575' }`,
where `typeMap[ext]` is the prototype-chain property access `typeMapGet`
(the `||` fallback fires only on a falsy read, i.e. `none`).
The `fileTypeCache` memoization is keyed by `download.Url`, the only field
the computation reads (the local `contentType` binding in the source is
never used), so the cached function is extensionally this pure function. -/
def getFileTypeInfo (download : Download) : JSTypeValue :=
  let ext := getFileExtension download.Url
  match typeMapGet ext with
  | some v => v
  | none => ⟨some (strUpper ext), some "#757575"⟩

/-- `Set.prototype.has` applied to a possibly-`undefined` `.name` read:
the active-type set holds label strings, so `has(undefined)` is false. -/
def hasName (fileTypes : List String) (n : Option String) : Bool :=
  match n with
  | some lbl => fileTypes.contains lbl
  | none => false

/-! ## A model of JavaScript `RegExp` (always constructed with `'i'` here) -/

/-- Regular-expression AST element.  `app.js` only ever builds patterns
from literals, `\`-escapes, `.`, `*`, `+`, `?`, `|`, `(...)` / `(?:...)`
groups, `[...]` classes and the `^` / `$` assertions, which this AST
covers; an alternation is a list of element sequences. -/
inductive RElem where
  | lit (c : Char)
  | dot
  | cls (neg : Bool) (chars : List Char)
  | startA
  | endA
  | group (alts : List (List RElem))
  | star (greedy : Bool) (e : RElem)
  | plus (greedy : Bool) (e : RElem)
  | opt (greedy : Bool) (e : RElem)

/-- A compiled pattern: the `|`-alternation of element sequences. -/
abbrev Regex := List (List RElem)

/-- A pending `(`-group during parsing: the completed alternatives and the
(reversed) current sequence of the enclosing level. -/
structure PFrame where
  alts : List (List RElem)
  cur : List RElem

/-- Parser mode: top level, or inside a `[...]` class. -/
inductive PMode where
  | normal
  | clsStart
  | cls (neg : Bool) (acc : List Char)
  | clsEsc (neg : Bool) (acc : List Char)

/-- Apply `*` or `+` to the last parsed element.  JavaScript raises
`SyntaxError` (`nothing to repeat`) when there is none, when it is an
assertion, or when it is already quantified. -/
def applyQuant (cur : List RElem) (mk : RElem → RElem) : Option (List RElem) :=
  match cur with
  | [] => none
  | .star _ _ :: _ => none
  | .plus _ _ :: _ => none
  | .opt _ _ :: _ => none
  | .startA :: _ => none
  | .endA :: _ => none
  | e :: rest => some (mk e :: rest)

/-- Apply a postfix `?`: a lazy marker after a greedy quantifier, otherwise
an optional wrapper, with the same error cases as `applyQuant`. -/
def applyOpt (cur : List RElem) : Option (List RElem) :=
  match cur with
  | [] => none
  | .star true e :: rest => some (.star false e :: rest)
  | .plus true e :: rest => some (.plus false e :: rest)
  | .opt true e :: rest => some (.opt false e :: rest)
  | .star false _ :: _ => none
  | .plus false _ :: _ => none
  | .opt false _ :: _ => none
  | .startA :: _ => none
  | .endA :: _ => none
  | e :: rest => some (.opt true e :: rest)

/-- Single-pass recursive-descent state machine for
`new RegExp(pattern, 'i')` compilation, structural in the remaining
characters.  Returns `none` where JavaScript raises `SyntaxError`
(unterminated class or group, dangling escape or `\|`-level errors,
nothing to repeat).  Constructs outside the fragment `app.js` builds are
modelled conservatively: lookarounds `(?=` / `(?!` / `(?<` refuse to
compile, `\d`-style shorthand escapes and `a-z` class ranges read as
literals, and `\x7b n,m \x7d` quantifiers are literal braces (none of
these occur in the verified patterns). -/
def parseLoop (stack : List PFrame) (alts : List (List RElem))
    (cur : List RElem) : PMode → List Char → Option (List (List RElem))
  | .normal, [] =>
    match stack with
    | [] => some (alts ++ [cur.reverse])
    | _ :: _ => none
  | .clsStart, [] => none
  | .cls _ _, [] => none
  | .clsEsc _ _, [] => none
  | .clsStart, c :: rest =>
    if c = '^' then parseLoop stack alts cur (.cls true []) rest
    else if c = ']' then parseLoop stack alts (.cls false [] :: cur) .normal rest
    else if c = '\\' then parseLoop stack alts cur (.clsEsc false []) rest
    else parseLoop stack alts cur (.cls false [c]) rest
  | .cls neg acc, c :: rest =>
    if c = ']' then parseLoop stack alts (.cls neg acc.reverse :: cur) .normal rest
    else if c = '\\' then parseLoop stack alts cur (.clsEsc neg acc) rest
    else parseLoop stack alts cur (.cls neg (c :: acc)) rest
  | .clsEsc neg acc, c :: rest => parseLoop stack alts cur (.cls neg (c :: acc)) rest
  | .normal, '\\' :: e :: rest => parseLoop stack alts (.lit e :: cur) .normal rest
  | .normal, ['\\'] => none
  | .normal, '(' :: '?' :: ':' :: rest => parseLoop (⟨alts, cur⟩ :: stack) [] [] .normal rest
  | .normal, '(' :: '?' :: _ => none
  | .normal, '(' :: rest => parseLoop (⟨alts, cur⟩ :: stack) [] [] .normal rest
  | .normal, c :: rest =>
    if c = '.' then parseLoop stack alts (.dot :: cur) .normal rest
    else if c = '^' then parseLoop stack alts (.startA :: cur) .normal rest
    else if c = '$' then parseLoop stack alts (.endA :: cur) .normal rest
    else if c = '|' then parseLoop stack (alts ++ [cur.reverse]) [] .normal rest
    else if c = '*' then
      (applyQuant cur (.star true)).bind (fun cur2 => parseLoop stack alts cur2 .normal rest)
    else if c = '+' then
      (applyQuant cur (.plus true)).bind (fun cur2 => parseLoop stack alts cur2 .normal rest)
    else if c = '?' then
      (applyOpt cur).bind (fun cur2 => parseLoop stack alts cur2 .normal rest)
    else if c = ')' then
      match stack with
      | [] => none
      | fr :: stack2 =>
        parseLoop stack2 fr.alts (.group (alts ++ [cur.reverse]) :: fr.cur) .normal rest
    else if c = '[' then parseLoop stack alts cur .clsStart rest
    else parseLoop stack alts (.lit c :: cur) .normal rest

/-- `new RegExp(pattern, 'i')`: `some` AST, or `none` for `SyntaxError`. -/
def compileRegex (pattern : String) : Option Regex :=
  parseLoop [] [] [] .normal pattern.data

/-- `.` outside a class excludes the line terminators (no `s` flag is ever
passed in `app.js`). -/
def dotOk (d : Char) : Bool :=
  !(d = '\n' || d = '\r' || d = ' ' || d = ' ')

/-- Case-insensitive class membership (items read as literals, see
`parseLoop`). -/
def clsMatch (neg : Bool) (chars : List Char) (d : Char) : Bool :=
  let hit := chars.any (fun c => c.toLower = d.toLower)
  if neg then !hit else hit

mutual

/-- Remaining-suffix continuations, in JavaScript backtracking order,
after matching the sequence `es` at the suffix `t` of `full`.  `fuel`
bounds only the recursion depth; `regexFuel` below always provides
enough for the inputs evaluated here. -/
def matchSeq (full : List Char) : Nat → List RElem → List Char → List (List Char)
  | 0, _, _ => []
  | _ + 1, [], t => [t]
  | fuel + 1, e :: es, t =>
    (matchOne full fuel e t).flatMap (fun t2 => matchSeq full fuel es t2)

/-- Continuations after matching one element at the suffix `t`. -/
def matchOne (full : List Char) : Nat → RElem → List Char → List (List Char)
  | 0, _, _ => []
  | _ + 1, .lit c, t =>
    match t with
    | [] => []
    | d :: ts => if d.toLower = c.toLower then [ts] else []
  | _ + 1, .dot, t =>
    match t with
    | [] => []
    | d :: ts => if dotOk d then [ts] else []
  | _ + 1, .cls neg chars, t =>
    match t with
    | [] => []
    | d :: ts => if clsMatch neg chars d then [ts] else []
  | _ + 1, .startA, t => if t.length = full.length then [t] else []
  | _ + 1, .endA, t => if t = [] then [t] else []
  | fuel + 1, .group alts, t => alts.flatMap (fun seq => matchSeq full fuel seq t)
  | fuel + 1, .star g e, t => matchStar full fuel g e t
  | fuel + 1, .plus g e, t =>
    (matchOne full fuel e t).flatMap (fun t2 => matchStar full fuel g e t2)
  | fuel + 1, .opt g e, t =>
    if g then matchOne full fuel e t ++ [t] else t :: matchOne full fuel e t

/-- Kleene-star continuations; each further iteration must consume at
least one character (JavaScript also cuts empty-match loops), greedy
order puts deeper iterations first. -/
def matchStar (full : List Char) : Nat → Bool → RElem → List Char → List (List Char)
  | 0, _, _, _ => []
  | fuel + 1, g, e, t =>
    let deeper := ((matchOne full fuel e t).filter
      (fun t2 => t2.length < t.length)).flatMap (fun t2 => matchStar full fuel g e t2)
    if g then deeper ++ [t] else t :: deeper

end

mutual

/-- Node count of one AST element. -/
def elemSize : RElem → Nat
  | .lit _ => 1
  | .dot => 1
  | .cls _ _ => 1
  | .startA => 1
  | .endA => 1
  | .group alts => 1 + altsSize alts
  | .star _ e => 1 + elemSize e
  | .plus _ e => 1 + elemSize e
  | .opt _ e => 1 + elemSize e

/-- Node count of a sequence. -/
def seqSize : List RElem → Nat
  | [] => 1
  | e :: es => elemSize e + seqSize es

/-- Node count of an alternation. -/
def altsSize : List (List RElem) → Nat
  | [] => 1
  | seq :: rest => seqSize seq + altsSize rest

end

/-- A generous recursion-depth bound for matching `r` against `text`. -/
def regexFuel (r : Regex) (text : List Char) : Nat :=
  (altsSize r + 1) * (text.length + 2) + 1

/-- Match attempts at consecutive start positions: leftmost start first,
then backtracking order; returns `(index, length)` of the first match,
i.e. the `match.index` / `match[0].length` data of `String.match`. -/
def searchFrom (r : Regex) (full : List Char) (i : Nat) : List Char → Option (Nat × Nat)
  | [] =>
    match (r.flatMap (fun seq => matchSeq full (regexFuel r full) seq [])).head? with
    | some rest => some (i, ([] : List Char).length - rest.length)
    | none => none
  | c :: ts =>
    match (r.flatMap (fun seq => matchSeq full (regexFuel r full) seq (c :: ts))).head? with
    | some rest => some (i, (c :: ts).length - rest.length)
    | none => searchFrom r full (i + 1) ts

/-- `regex.test(text)`. -/
def regexTest (r : Regex) (text : String) : Bool :=
  (searchFrom r text.data 0 text.data).isSome

/-- `text.match(regex)`, reduced to the `(index, length)` pair the caller
reads. -/
def firstMatch (r : Regex) (text : String) : Option (Nat × Nat) :=
  searchFrom r text.data 0 text.data

/-! ## Search matching (`wildcardToRegex` / `matchesSearch`,
app.js 1324-1361) -/

/-- The characters of the class in
`pattern.replace(/[.+^$\x7b\x7d()|[\]\\]/g, '\\$&')`. -/
def isMeta (c : Char) : Bool :=
  c = '.' || c = '+' || c = '^' || c = '$' || c = '\x7b' || c = '\x7d' ||
  c = '(' || c = ')' || c = '|' || c = '[' || c = ']' || c = '\\'

/-- First replace of `wildcardToRegex`: escape the metacharacters (the
class matches single characters, so the global replace acts
character-wise). -/
def escapeMeta (s : String) : String :=
  ⟨s.data.flatMap (fun c => if isMeta c then ['\\', c] else [c])⟩

/-- `escaped.replace(/\*/g, '.*')`. -/
def starToDotStar (s : String) : String :=
  ⟨s.data.flatMap (fun c => if c = '*' then ['.', '*'] else [c])⟩

/-- `.replace(/\?/g, '.')`. -/
def qToDot (s : String) : String :=
  ⟨s.data.map (fun c => if c = '?' then '.' else c)⟩

/-- The pattern string built by `wildcardToRegex` (app.js 1325-1330). -/
def wildcardPattern (pattern : String) : String :=
  qToDot (starToDotStar (escapeMeta pattern))

/-- `function wildcardToRegex(pattern)`: `new RegExp(wildcardPattern, 'i')`;
compilation is modelled in `Option` (it in fact always succeeds, see
`wildcardToRegex_eq_some`). -/
def wildcardToRegex (pattern : String) : Option Regex :=
  compileRegex (wildcardPattern pattern)

/-- Mode-3 literal matching, the final branch of `matchesSearch`:
substring containment, or containment after stripping all whitespace from
both sides. -/
def literalMatch (text searchTerm : String) : Bool :=
  strIncludes text searchTerm ||
    strIncludes (stripSpaces text) (stripSpaces searchTerm)

/-- `function matchesSearch(text, searchTerm)` (app.js 1334-1361).  The
`try/catch` around regex construction is modelled by the `Option` return
of `compileRegex`: the `catch` branch is plain `text.includes(searchTerm)`
on the full needle.  A failing wildcard compilation would propagate in
JavaScript; that branch is unreachable (`wildcardToRegex_eq_some`) and
modelled as `false`. -/
def matchesSearch (text searchTerm : String) : Bool :=
  if headIs searchTerm '/' || headIs searchTerm '^' then
    match compileRegex (if headIs searchTerm '/' then strDrop1 searchTerm else searchTerm) with
    | some regex => regexTest regex text
    | none => strIncludes text searchTerm
  else if strContainsChar searchTerm '*' || strContainsChar searchTerm '?' then
    match wildcardToRegex searchTerm with
    | some regex => regexTest regex text
    | none => false
  else
    literalMatch text searchTerm

/-! ## Verification of the search-matching claims (C6, C7) -/

/-- Character-wise effect of the three replaces of `wildcardToRegex`. -/
def transChar (c : Char) : List Char :=
  if isMeta c then ['\\', c]
  else if c = '*' then ['.', '*']
  else if c = '?' then ['.']
  else [c]

/-- AST element the compiled wildcard pattern holds for one needle
character. -/
def elemOfWild (c : Char) : RElem :=
  if c = '*' then .star true .dot else if c = '?' then .dot else .lit c

/-! ## The folder tree (`buildFolderTree`, app.js 407-444) -/

/-- One folder-tree node: the immediate child folder names (a JS `Set`,
insertion-ordered and duplicate-free) and the records whose immediate
parent is this folder. -/
structure FolderNode where
  folders : List String
  files : List Download
deriving DecidableEq

/-- The `folderTree` JS `Map`, modelled as an insertion-ordered
association list (`buildFolderTree` keeps its keys unique). -/
abbrev FolderTree := List (String × FolderNode)

/-- `{ folders: new Set(), files: [] }`. -/
def emptyNode : FolderNode := ⟨[], []⟩

/-- `folderTree.get(k)` (`undefined` = `none`). -/
def treeFind : FolderTree → String → Option FolderNode
  | [], _ => none
  | (k2, v) :: rest, k => if k2 = k then some v else treeFind rest k

/-- `folderTree.has(k)`. -/
def treeHas (t : FolderTree) (k : String) : Bool :=
  (treeFind t k).isSome

/-- `folderTree.set(k, v)`: replace in place, append when absent. -/
def treeSet : FolderTree → String → FolderNode → FolderTree
  | [], k, v => [(k, v)]
  | (k2, v2) :: rest, k, v =>
    if k2 = k then (k, v) :: rest else (k2, v2) :: treeSet rest k v

/-- In-place mutation of the node at `k`, as performed by
`folderTree.get(k).files.push(...)` and `folderTree.get(k).folders.add(...)`
on the live object. -/
def treeModify : FolderTree → String → (FolderNode → FolderNode) → FolderTree
  | [], _, _ => []
  | (k2, v2) :: rest, k, f =>
    if k2 = k then (k2, f v2) :: rest else (k2, v2) :: treeModify rest k f

/-- `Set.prototype.add` on an insertion-ordered duplicate-free list. -/
def addFolderName (l : List String) (s : String) : List String :=
  if s ∈ l then l else l ++ [s]

/-- `if (!folderTree.has(k)) folderTree.set(k, emptyNode)`. -/
def ensureNode (t : FolderTree) (k : String) : FolderTree :=
  if treeHas t k then t else treeSet t k emptyNode

/-- The tree keys (`folderTree.keys()`). -/
def treeKeys (t : FolderTree) : List String :=
  t.map Prod.fst

/-- The files sequence of the node at `k` (empty when absent). -/
def filesAt (t : FolderTree) (k : String) : List Download :=
  ((treeFind t k).map (fun n => n.files)).getD []

/-- The child-folder set of the node at `k` (empty when absent). -/
def foldersAt (t : FolderTree) (k : String) : List String :=
  ((treeFind t k).map (fun n => n.folders)).getD []

/-- `parts.slice(0, -1).join('/')`: the key of a record's immediate
parent folder. -/
def parentKey (d : Download) : String :=
  joinSlash (jsSplit d.Name).dropLast

/-- One iteration of the folder-hierarchy loop of `buildFolderTree`
(app.js 429-442), factored out of `insertDownload` for the proofs. -/
def insertStep (parts : List String) (tr : FolderTree) (i : Nat) : FolderTree :=
  let t3 := ensureNode tr (joinSlash (parts.take i))
  let t4 := treeModify t3 (joinSlash (parts.take i))
    (fun n => { n with folders := addFolderName n.folders (parts.getD i "") })
  ensureNode t4 (joinSlash (parts.take (i + 1)))

/-- The per-record body of the `allDownloads.forEach` in `buildFolderTree`:
append the record to its parent node's files (creating the node when
needed), then register every (prefix, child-name) edge and create every
prefix node.  The `getFileTypeInfo(download)` pre-caching call only warms
the memo cache and does not touch the tree. -/
def insertDownload (t : FolderTree) (d : Download) : FolderTree :=
  let parts := jsSplit d.Name
  let t2 := treeModify (ensureNode t (joinSlash parts.dropLast))
    (joinSlash parts.dropLast) (fun n => { n with files := n.files ++ [d] })
  (List.range (parts.length - 1)).foldl (insertStep parts) t2

/-- `function buildFolderTree()` (app.js 407-444): clear, initialize the
root node, insert every record. -/
def buildFolderTree (downloads : List Download) : FolderTree :=
  downloads.foldl insertDownload [("", emptyNode)]

/-! ## Filtering, sorting and the browse/search pipelines
(`filterDownloads` app.js 588-619, `sortFiles` 1296-1322,
`folderHasMatchingFiles` 1402-1435, `displayDownloads` 1437-1535,
`renderSearchResults` 1363-1400) -/

/-- `function filterDownloads(downloads, options)`: zero-byte exclusion,
file-type filter (an empty set accepts everything), then the search
filter on the lowercased full path. -/
def filterDownloads (downloads : List Download) (searchTerm : String)
    (fileTypes : List String) (excludeZeroByte : Bool) : List Download :=
  downloads.filter (fun d =>
    if excludeZeroByte && decide (d.Length ≤ 0) then false
    else if decide (0 < fileTypes.length) &&
        !(hasName fileTypes (getFileTypeInfo d).name) then false
    else if !(searchTerm == "") &&
        !(matchesSearch (strLower d.Name) (strLower searchTerm)) then false
    else true)

/-- `parts.pop().toLowerCase()` of the `name-asc` comparator. -/
def baseNameLower (d : Download) : String :=
  strLower ((jsSplit d.Name).getLastD "")

/-- `function sortFiles(files)` (app.js 1296-1322): a stable sort
(`Array.prototype.sort` is specified stable) by the comparator selected
by the module-level `sortBy`; an unrecognized key returns the copy
unsorted.  The stable sort is modelled by insertion sort, which computes
the unique stable result for the total transitive comparators used here.
`localeCompare` of the lowercased base names is modelled by the
character-wise string order, and `new Date(x) - new Date(y)` by the order
of the `LastModified` instants. -/
def sortFiles (sortBy : String) (files : List Download) : List Download :=
  if sortBy = "date-desc" then
    files.insertionSort (fun a b => b.LastModified ≤ a.LastModified)
  else if sortBy = "date-asc" then
    files.insertionSort (fun a b => a.LastModified ≤ b.LastModified)
  else if sortBy = "size-desc" then
    files.insertionSort (fun a b => b.Length ≤ a.Length)
  else if sortBy = "size-asc" then
    files.insertionSort (fun a b => a.Length ≤ b.Length)
  else if sortBy = "name-asc" then
    files.insertionSort (fun a b => baseNameLower a ≤ baseNameLower b)
  else files

/-- The per-record predicate inside `folderHasMatchingFiles`
(app.js 1413-1421): non-zero length, and membership in the active
file-type set when one is selected. -/
def eligibleFile (activeFileTypes : List String) (d : Download) : Bool :=
  if decide (d.Length ≤ 0) then false
  else if decide (0 < activeFileTypes.length) then
    hasName activeFileTypes (getFileTypeInfo d).name
  else true

/-- The recursive `checkNode` closure of `folderHasMatchingFiles`
(app.js 1408-1432).  The JavaScript recursion terminates because keys
strictly lengthen along `folders` edges of a built tree; the embedding
makes this explicit with a fuel argument, and `folderHasMatchingFiles`
passes fuel that is always sufficient on built trees (the C2 proofs show
the result is independent of any fuel at least the subtree depth). -/
def checkNode (t : FolderTree) (activeFileTypes : List String) :
    Nat → String → Bool
  | 0, _ => false
  | fuel + 1, path =>
    match treeFind t path with
    | none => false
    | some node =>
      if node.files.any (eligibleFile activeFileTypes) then true
      else node.folders.any
        (fun sub => checkNode t activeFileTypes fuel (joinKey path sub))

/-- `function folderHasMatchingFiles(parentPath, folderName)`
(app.js 1404-1435). -/
def folderHasMatchingFiles (t : FolderTree) (activeFileTypes : List String)
    (parentPath folderName : String) : Bool :=
  checkNode t activeFileTypes (t.length + 1) (joinKey parentPath folderName)

/-- One entry of the browse-mode result list (`allItems` of
`displayDownloads`). -/
inductive BrowseItem where
  | folder (name : String)
  | file (d : Download)
deriving DecidableEq

/-- Character-wise lexicographic comparison, the JavaScript default sort
comparator on strings (code-point order; `jsStrLe_iff_le` identifies it
with the standard string order). -/
def lexLe : List Char → List Char → Bool
  | [], _ => true
  | _ :: _, [] => false
  | c :: cs, d :: ds => if c = d then lexLe cs ds else decide (c < d)

/-- JavaScript default string comparison, `a ≤ b`. -/
def jsStrLe (a b : String) : Bool := lexLe a.data b.data

/-- `filteredFolders.sort()`: the default JavaScript sort, lexicographic
(case-sensitive) string order, stable (modelled by insertion sort). -/
def sortStrings (l : List String) : List String :=
  l.insertionSort (fun a b => jsStrLe a b = true)

/-- The pruned candidate folders of browse mode
(`folders.filter(folderName => folderHasMatchingFiles(pathKey, folderName))`,
app.js 1477). -/
def browseFolders (t : FolderTree) (activeFileTypes : List String)
    (pathKey : String) : List String :=
  (foldersAt t pathKey).filter
    (fun name => folderHasMatchingFiles t activeFileTypes pathKey name)

/-- The ordered browse-mode result list (`allItems` of `displayDownloads`,
app.js 1458-1483): the sorted surviving folders, then the sorted filtered
files; an unknown path gives the empty "Folder not found" result. -/
def browseItems (t : FolderTree) (activeFileTypes : List String)
    (sortBy : String) (pathKey : String) : List BrowseItem :=
  match treeFind t pathKey with
  | none => []
  | some node =>
    (sortStrings (node.folders.filter
        (fun name => folderHasMatchingFiles t activeFileTypes pathKey name))).map
          BrowseItem.folder ++
      (sortFiles sortBy (filterDownloads node.files "" activeFileTypes true)).map
        BrowseItem.file

/-- The ordered search-mode result list (`displayDownloads` search branch
and `renderSearchResults`, app.js 1447-1455 / 1364-1378): the whole flat
record list filtered by search term, type filter and zero-byte exclusion,
then sorted.  `displayDownloads` lowercases the input-box value before
passing it on. -/
def searchResults (downloads : List Download) (searchTerm : String)
    (activeFileTypes : List String) (sortBy : String) : List Download :=
  sortFiles sortBy
    (filterDownloads downloads (strLower searchTerm) activeFileTypes true)

/-! ## Browse-mode ordering and sort stability (C4) -/

/-- The spec's three-record scenario (§8): `docs/readme.txt` (500 B),
`docs/guide.pdf` (1000 B), `bin/app.exe` (2000 B). -/
def scenarioDownloads : List Download :=
  [⟨"docs/readme.txt", "https://h/docs/readme.txt", 500, 100, ""⟩,
   ⟨"docs/guide.pdf", "https://h/docs/guide.pdf", 1000, 200, ""⟩,
   ⟨"bin/app.exe", "https://h/bin/app.exe", 2000, 300, ""⟩]

/-! ## Well-formed names and path-key arithmetic (towards C2) -/

/-- Well-formed record names: every `/`-segment is non-empty and contains
no `/`.  (Slash-freeness is automatic for real `split('/')` segments and
is spelled out so the proofs can use it directly; non-emptiness is the
spec's "never empty, no leading `/`" discipline.) -/
def wfDownloads (downloads : List Download) : Prop :=
  ∀ d ∈ downloads, ∀ seg ∈ jsSplit d.Name, seg ≠ "" ∧ '/' ∉ seg.data

/-- The two-record scenario of the spec: a PDF under `a/b` and a ZIP
under `a/c`, with only the ZIP label active. -/
def scenC2 : List Download :=
  [⟨"a/b/x.pdf", "https://host/a/b/x.pdf", 500, 0, "application/pdf"⟩,
   ⟨"a/c/y.zip", "https://host/a/c/y.zip", 600, 0, "application/zip"⟩]

/-- A single zero-byte record under `a/b`, with no type filter active. -/
def scenZero : List Download :=
  [⟨"a/b/x.pdf", "https://host/a/b/x.pdf", 0, 0, "application/pdf"⟩]

/-! ## `getAllFolderPaths` / `matchFolders` (app.js 733-796, C9) -/

/-- `function getAllFolderPaths()` (app.js 733-745): every
`parts.slice(0, i).join('/')` for `1 <= i < parts.length` over every
record, collected into an insertion-ordered set. -/
def getAllFolderPaths (allDownloads : List Download) : List String :=
  allDownloads.foldl
    (fun acc d =>
      (List.range ((jsSplit d.Name).length - 1)).foldl
        (fun acc2 j => addFolderName acc2 (joinSlash ((jsSplit d.Name).take (j + 1))))
        acc)
    []

/-- One folder of the `allFolders.forEach` of `matchFolders`
(app.js 757-771).  On a `regex.test` hit the loop body constructs
`new RegExp(pattern, 'i')`; a `SyntaxError` there propagates (`none`).
A non-null `match` inserts
`folder.substring(0, match.index + match[0].length)` into the map keyed
by itself, so the vestigial shortest-path re-insertion
(`folder.length < matchedPaths.get(matchedPart).length`) re-`set`s an
existing key with the identical value and never changes the key list:
the keys are the insertion-ordered distinct matched parts. -/
def matchFoldersStep (radj : Regex) (pattern : String)
    (acc : Option (List String)) (folder : String) : Option (List String) :=
  acc.bind (fun m =>
    if regexTest radj folder then
      match compileRegex pattern with
      | none => none
      | some rpat =>
        match firstMatch rpat folder with
        | none => some m
        | some p =>
          if strTake folder (p.1 + p.2) ∈ m then some m
          else some (m ++ [strTake folder (p.1 + p.2)])
    else some m)

/-- The fallback `allDownloads.forEach` of `matchFolders`
(app.js 777-787): parent paths of records whose full name matches the
unsuffixed pattern, skipping the empty parent and duplicates. -/
def matchFoldersFallback (rpat : Regex) (m : List String) (d : Download) :
    List String :=
  if regexTest rpat d.Name then
    if parentKey d ≠ "" ∧ parentKey d ∉ m then m ++ [parentKey d] else m
  else m

/-- The comparator sort of `matchFolders` (app.js 790-792): `'desc'`
sorts by `b.localeCompare(a)` (descending), anything else ascending;
`localeCompare` is read as the code-point order (`jsStrLe_iff_le`). -/
def sortPaths (sortOrder : String) (l : List String) : List String :=
  if sortOrder = "desc" then l.insertionSort (fun a b => jsStrLe b a = true)
  else l.insertionSort (fun a b => jsStrLe a b = true)

/-- `function matchFolders(pattern, limit, sortOrder)` (app.js 748-796).
`none` models a `SyntaxError` escaping from one of the three
`new RegExp(..., 'i')` constructions; the adjusted pattern appends
`(?:/|$)` exactly when the pattern does not contain a `$` character. -/
def matchFolders (allDownloads : List Download) (pattern : String)
    (limit : Nat) (sortOrder : String) : Option (List String) :=
  match compileRegex
      (if strContainsChar pattern '$' then pattern
        else pattern ++ "(?:/|$)") with
  | none => none
  | some radj =>
    match (getAllFolderPaths allDownloads).foldl
        (matchFoldersStep radj pattern) (some []) with
    | none => none
    | some m0 =>
      match (if m0.length = 0 then
          match compileRegex pattern with
          | none => none
          | some rpat =>
            some (allDownloads.foldl (matchFoldersFallback rpat) m0)
        else some m0) with
      | none => none
      | some m => some ((sortPaths sortOrder m).take limit)

/-- A record whose first path segment contains a literal `$`. -/
def scenC9 : List Download :=
  [⟨"a$b/f.txt", "https://host/f.txt", 100, 0, "text/plain"⟩]

/-- Two records distinguishing `a/b` from `a/bc` under the trailing
anchor. -/
def scenC9b : List Download :=
  [⟨"a/b/f.txt", "https://host/f.txt", 100, 0, "text/plain"⟩,
   ⟨"a/bc/g.txt", "https://host/g.txt", 100, 0, "text/plain"⟩]

/-- A record whose folder never matches but whose file name does. -/
def scenC9c : List Download :=
  [⟨"docs/readme.txt", "https://host/readme.txt", 100, 0, "text/plain"⟩]

theorem totalPagesOf_zero : totalPagesOf 0 = 0 := by decide

theorem totalPagesOf_succ_of_pos {n : Nat} (h : 1 ≤ n) :
    totalPagesOf n = totalPagesOf (n - 100) + 1 := by
  unfold totalPagesOf itemsPerPage
  have h1 := Nat.div_add_mod (n + 99) 100
  have h2 : (n + 99) % 100 < 100 := Nat.mod_lt _ (by omega)
  have h3 := Nat.div_add_mod (n - 100 + 99) 100
  have h4 : (n - 100 + 99) % 100 < 100 := Nat.mod_lt _ (by omega)
  omega

theorem pageSlice_shift (items : List α) (k : Nat) :
    pageSlice items (k + 2) = pageSlice (items.drop 100) (k + 1) := by
  unfold pageSlice itemsPerPage
  simp only [List.drop_drop, List.length_drop]
  have harith : (k + 2 - 1) * 100 = 100 + (k + 1 - 1) * 100 := by omega
  rw [← harith]
  congr 1
  omega

theorem pageSlice_one (items : List α) :
    pageSlice items 1 = items.take 100 := by
  unfold pageSlice itemsPerPage
  simp only [Nat.sub_self, Nat.zero_mul, List.drop_zero, Nat.zero_add, Nat.sub_zero]
  rcases Nat.le_total items.length 100 with h | h
  · rw [Nat.min_eq_right h, List.take_length, List.take_of_length_le h]
  · rw [Nat.min_eq_left h]

theorem pages_join : ∀ (t : Nat) (items : List α), totalPagesOf items.length = t →
    ((List.range t).map (fun k => pageSlice items (k + 1))).flatten = items := by
  intro t
  induction t with
  | zero =>
    intro items h
    have h1 := Nat.div_add_mod (items.length + 99) 100
    have h2 : (items.length + 99) % 100 < 100 := Nat.mod_lt _ (by omega)
    have hlen : items.length = 0 := by
      unfold totalPagesOf itemsPerPage at h
      omega
    rw [List.eq_nil_of_length_eq_zero hlen]
    simp
  | succ t ih =>
    intro items h
    have hpos : 1 ≤ items.length := by
      by_contra hc
      have : items.length = 0 := by omega
      rw [totalPagesOf] at h
      simp [this, itemsPerPage] at h
    rw [List.range_succ_eq_map]
    simp only [List.map_cons, List.map_map, List.flatten_cons]
    have hrest : ((List.range t).map ((fun k => pageSlice items (k + 1)) ∘ Nat.succ)).flatten
        = items.drop 100 := by
      have hcomp : ((fun k => pageSlice items (k + 1)) ∘ Nat.succ)
          = fun k => pageSlice (items.drop 100) (k + 1) := by
        funext k
        simp only [Function.comp, Nat.succ_eq_add_one]
        exact pageSlice_shift items k
      rw [hcomp]
      apply ih
      have := totalPagesOf_succ_of_pos hpos
      rw [List.length_drop]
      omega
    rw [hrest]
    have h1 : pageSlice items (0 + 1) = items.take 100 := pageSlice_one items
    rw [h1, List.take_append_drop]

/-- C5: for an ordered result list of length `N` with page size 100, the
reported page count is `⌈N / 100⌉`, the page slices for pages `1 .. ⌈N/100⌉`
concatenate back to the whole list (so their total length is `N`), no page
slice holds more than 100 items, and a 0-item result reports 0 pages and an
empty first page. -/
theorem C5_pagination_total {α : Type} (items : List α) :
    (items.length ≤ totalPagesOf items.length * 100 ∧
      totalPagesOf items.length * 100 < items.length + 100) ∧
    ((List.range (totalPagesOf items.length)).map (fun k => pageSlice items (k + 1))).flatten
      = items ∧
    (∀ p : Nat, (pageSlice items p).length ≤ 100) ∧
    (totalPagesOf 0 = 0 ∧ pageSlice ([] : List α) 1 = []) := by
  refine ⟨?_, pages_join _ items rfl, ?_, totalPagesOf_zero, rfl⟩
  · have h1 := Nat.div_add_mod (items.length + 99) 100
    have h2 : (items.length + 99) % 100 < 100 := Nat.mod_lt _ (by omega)
    unfold totalPagesOf itemsPerPage
    omega
  · intro p
    unfold pageSlice itemsPerPage
    simp only
    have := List.length_take_le ((min ((p - 1) * 100 + 100) items.length) - (p - 1) * 100)
      (items.drop ((p - 1) * 100))
    omega

/-- Witness for `C5_pagination_total` at a concrete 2-element list (the
theorem itself is hypothesis-free after the list is supplied; we record a
concrete consequence). -/
theorem C5_pagination_total_witness :
    ((List.range (totalPagesOf ([1, 2] : List Nat).length)).map
      (fun k => pageSlice ([1, 2] : List Nat) (k + 1))).flatten = [1, 2] :=
  (C5_pagination_total [1, 2]).2.1

/-- C10: `nextPage` and `prevPage` keep an in-range 1-based page number
inside `[1, totalPages]` and are no-ops at the boundaries, while `lastPage`
is exactly `⌈totalItems / 100⌉` with no lower clamp, hence `0` when the
current view has zero items. -/
theorem C10_page_nav_bounds :
    (∀ cp n : Nat, 1 ≤ cp → cp ≤ totalPagesOf n →
      1 ≤ nextPage cp n ∧ nextPage cp n ≤ totalPagesOf n) ∧
    (∀ cp n : Nat, 1 ≤ cp → cp ≤ totalPagesOf n →
      1 ≤ prevPage cp ∧ prevPage cp ≤ totalPagesOf n) ∧
    (∀ cp n : Nat, cp = totalPagesOf n → nextPage cp n = cp) ∧
    (∀ cp : Nat, cp = 1 → prevPage cp = cp) ∧
    (∀ n : Nat, lastPage n = (n + 99) / 100) ∧
    (∀ n : Nat, 0 < n → 1 ≤ lastPage n) ∧
    lastPage 0 = 0 := by
  refine ⟨?_, ?_, ?_, ?_, ?_, ?_, by decide⟩
  · intro cp n h1 h2
    unfold nextPage
    split <;> omega
  · intro cp n h1 h2
    unfold prevPage
    split <;> omega
  · intro cp n h
    unfold nextPage
    split <;> omega
  · intro cp h
    unfold prevPage
    split <;> omega
  · intro n
    rfl
  · intro n hn
    unfold lastPage totalPagesOf itemsPerPage
    have h1 := Nat.div_add_mod (n + 99) 100
    have h2 : (n + 99) % 100 < 100 := Nat.mod_lt _ (by omega)
    omega

/-- Witness for `C10_page_nav_bounds`: concrete applications with the
hypotheses discharged at `cp = 2`, `n = 250` (so `totalPages = 3`). -/
theorem C10_page_nav_bounds_witness :
    (1 ≤ nextPage 2 250 ∧ nextPage 2 250 ≤ totalPagesOf 250) ∧
    (1 ≤ prevPage 2 ∧ prevPage 2 ≤ totalPagesOf 250) ∧
    nextPage 3 250 = 3 ∧ prevPage 1 = 1 ∧ lastPage 0 = 0 :=
  ⟨C10_page_nav_bounds.1 2 250 (by decide) (by decide),
   C10_page_nav_bounds.2.1 2 250 (by decide) (by decide),
   C10_page_nav_bounds.2.2.1 3 250 (by decide),
   C10_page_nav_bounds.2.2.2.1 1 rfl,
   C10_page_nav_bounds.2.2.2.2.2.2⟩

theorem extScan_none_of_no_dot : ∀ l : List Char, l.all (fun c => !(c = '.')) →
    extScan l = none := by
  intro l
  induction l with
  | nil => intro _; rfl
  | cons c rest ih =>
    intro h
    simp only [List.all_cons, Bool.and_eq_true, Bool.not_eq_true] at h
    obtain ⟨hc, hrest⟩ := h
    unfold extScan
    rw [if_neg (by simpa using hc)]
    exact ih (by simpa using hrest)

theorem toLower_toNat_not_upper (c : Char) :
    ¬(65 ≤ (Char.toLower c).toNat ∧ (Char.toLower c).toNat ≤ 90) := by
  simp only [Char.toLower]
  split
  case isTrue h =>
    have hv : (Char.toNat c + 32).isValidChar := Or.inl (by omega)
    have ht : (Char.ofNat (Char.toNat c + 32)).toNat = Char.toNat c + 32 := by
      rw [Char.ofNat, dif_pos hv]
      simp [Char.ofNatAux, Char.toNat, UInt32.toNat]
    omega
  case isFalse h =>
    omega

/-- C8 counterexample: the `typeMap` lookup is a JS property access, so
a (lowercase) extension naming an `Object.prototype` member bypasses the
uppercased-extension fallback even though it is not a table key:
`x.constructor` classifies with the inherited `Object` constructor
function (label `Object`, no color — not `CONSTRUCTOR`), and
`x.__proto__` with `Object.prototype` itself (no label at all). -/
theorem C8_classification_counterexample :
    getFileExtension "https://h/x.constructor" = "constructor" ∧
    lookupType "constructor" = none ∧
    getFileTypeInfo ⟨"x.constructor", "https://h/x.constructor", 1, 0, ""⟩ =
      ⟨some "Object", none⟩ ∧
    (getFileTypeInfo ⟨"x.constructor", "https://h/x.constructor", 1, 0, ""⟩).name ≠
      some (strUpper "constructor") ∧
    getFileTypeInfo ⟨"x.__proto__", "https://h/x.__proto__", 1, 0, ""⟩ =
      ⟨none, none⟩ := by decide

/-- C8 (amended): `getFileTypeInfo` computes the label from the lowercase
extension of the record URL through the fixed `typeMap` table; the table
is read by JS property access, so on a miss the `Object.prototype` chain
is consulted: the extensions `constructor` and `__proto__` hit inherited
truthy values and classify with label `Object` resp. no label and no
color, and every other non-table extension yields the generic label
`ext.toUpperCase()`; a URL with no `.` at all uses the literal marker
`'unknown'` and hence the generic file label `UNKNOWN`.  Concrete
anchors: an uppercase `.PDF` URL classifies as `PDF`, an unknown `.xyz`
extension as `XYZ`. -/
theorem C8_classification_amended :
    (∀ d : Download, (∀ info, lookupType (getFileExtension d.Url) = some info →
        getFileTypeInfo d = ⟨some info.name, some info.color⟩) ∧
      (lookupType (getFileExtension d.Url) = none →
        getFileExtension d.Url ≠ "constructor" →
        getFileExtension d.Url ≠ "__proto__" →
        getFileTypeInfo d =
          ⟨some (strUpper (getFileExtension d.Url)), some "#757575"⟩) ∧
      (getFileExtension d.Url = "constructor" →
        getFileTypeInfo d = ⟨some "Object", none⟩) ∧
      (getFileExtension d.Url = "__proto__" →
        getFileTypeInfo d = ⟨none, none⟩)) ∧
    (∀ u : String, ∀ c ∈ (getFileExtension u).data,
      ¬(65 ≤ c.toNat ∧ c.toNat ≤ 90)) ∧
    (∀ d : Download, strContainsChar d.Url '.' = false →
      getFileExtension d.Url = "unknown" ∧
      getFileTypeInfo d = ⟨some "UNKNOWN", some "#757575"⟩) ∧
    getFileTypeInfo ⟨"x.PDF", "https://h/x.PDF", 1, 0, ""⟩ =
      ⟨some "PDF", some "#d32f2f"⟩ ∧
    getFileTypeInfo ⟨"a.xyz", "https://h/a.xyz", 1, 0, ""⟩ =
      ⟨some "XYZ", some "#757575"⟩ := by
  refine ⟨?_, ?_, ?_, by decide, by decide⟩
  · intro d
    refine ⟨?_, ?_, ?_, ?_⟩
    · intro info hinfo
      simp only [getFileTypeInfo, typeMapGet, hinfo]
    · intro hnone hc hp
      simp only [getFileTypeInfo, typeMapGet, hnone, if_neg hc, if_neg hp]
    · intro hext
      simp only [getFileTypeInfo, hext]
      decide
    · intro hext
      simp only [getFileTypeInfo, hext]
      decide
  · intro u c hc
    unfold getFileExtension at hc
    revert hc
    cases hscan : extScan u.data with
    | none =>
      intro hc
      exact (by decide : ∀ x ∈ ("unknown" : String).data,
        ¬(65 ≤ x.toNat ∧ x.toNat ≤ 90)) c hc
    | some run =>
      intro hc
      have hc2 : c ∈ run.map Char.toLower := hc
      obtain ⟨c0, _, hcc⟩ := List.mem_map.mp hc2
      subst hcc
      exact toLower_toNat_not_upper c0
  · intro d hdot
    have hnone : extScan d.Url.data = none := by
      apply extScan_none_of_no_dot
      unfold strContainsChar at hdot
      simp only [List.any_eq_false, decide_eq_true_eq] at hdot
      simp only [List.all_eq_true, Bool.not_eq_true]
      intro c hc
      simpa using hdot c hc
    have hext : getFileExtension d.Url = "unknown" := by
      unfold getFileExtension
      rw [hnone]
    refine ⟨hext, ?_⟩
    simp only [getFileTypeInfo, hext]
    decide

/-- Witness for `C8_classification_amended`: the hypothesis-bearing
conjuncts applied at concrete inputs — a dotless URL, a table hit, a
generic miss, and a prototype-chain hit. -/
theorem C8_classification_amended_witness :
    getFileTypeInfo ⟨"z", "httpz", 1, 0, ""⟩ = ⟨some "UNKNOWN", some "#757575"⟩ ∧
    getFileTypeInfo ⟨"y.zip", "https://h/y.zip", 1, 0, ""⟩ =
      ⟨some "ZIP", some "#ff9800"⟩ ∧
    getFileTypeInfo ⟨"b.xyz", "https://h/b.xyz", 1, 0, ""⟩ =
      ⟨some "XYZ", some "#757575"⟩ ∧
    getFileTypeInfo ⟨"c.constructor", "https://h/c.constructor", 1, 0, ""⟩ =
      ⟨some "Object", none⟩ :=
  ⟨(C8_classification_amended.2.2.1 ⟨"z", "httpz", 1, 0, ""⟩ (by decide)).2,
   (C8_classification_amended.1 ⟨"y.zip", "https://h/y.zip", 1, 0, ""⟩).1
     ⟨"ZIP", "#ff9800"⟩ (by decide),
   (C8_classification_amended.1 ⟨"b.xyz", "https://h/b.xyz", 1, 0, ""⟩).2.1
     (by decide) (by decide) (by decide),
   (C8_classification_amended.1
     ⟨"c.constructor", "https://h/c.constructor", 1, 0, ""⟩).2.2.1 (by decide)⟩

theorem meta_cases (c : Char) (hm : isMeta c = true) :
    c = '.' ∨ c = '+' ∨ c = '^' ∨ c = '$' ∨ c = '\x7b' ∨ c = '\x7d' ∨
    c = '(' ∨ c = ')' ∨ c = '|' ∨ c = '[' ∨ c = ']' ∨ c = '\\' := by
  simpa [isMeta, or_assoc] using hm

theorem transChar_step (c : Char) :
    ((if isMeta c then ['\\', c] else [c]).flatMap
      (fun d => if d = '*' then ['.', '*'] else [d])).map
      (fun d => if d = '?' then '.' else d) = transChar c := by
  by_cases hm : isMeta c = true
  · rcases meta_cases c hm with rfl|rfl|rfl|rfl|rfl|rfl|rfl|rfl|rfl|rfl|rfl|rfl <;> rfl
  · have hm2 : isMeta c = false := by simpa using hm
    by_cases h7 : c = '*'
    · subst h7; rfl
    · by_cases h9 : c = '?'
      · subst h9; rfl
      · simp [transChar, hm2, h7, h9]

theorem trans_lists : ∀ l : List Char,
    ((l.flatMap (fun c => if isMeta c then ['\\', c] else [c])).flatMap
      (fun d => if d = '*' then ['.', '*'] else [d])).map
      (fun d => if d = '?' then '.' else d) = l.flatMap transChar := by
  intro l
  induction l with
  | nil => rfl
  | cons c l ih =>
    simp only [List.flatMap_cons, List.flatMap_append, List.map_append, ih]
    rw [transChar_step]

/-- The pattern string built by `wildcardToRegex` is the character-wise
translation: metacharacters escaped, `*` to `.*`, `?` to `.`, everything
else untouched. -/
theorem wildcardPattern_flatMap (p : String) :
    (wildcardPattern p).data = p.data.flatMap transChar :=
  trans_lists p.data

theorem parseLoop_esc_step (stack : List PFrame) (alts : List (List RElem))
    (cur : List RElem) (e : Char) (rest : List Char) :
    parseLoop stack alts cur .normal ('\\' :: e :: rest) =
      parseLoop stack alts (.lit e :: cur) .normal rest := by
  rw [parseLoop.eq_def]
  simp

theorem parseLoop_dot_step (stack : List PFrame) (alts : List (List RElem))
    (cur : List RElem) (rest : List Char) :
    parseLoop stack alts cur .normal ('.' :: rest) =
      parseLoop stack alts (.dot :: cur) .normal rest := by
  rw [parseLoop.eq_def]
  simp

theorem parseLoop_star_step (stack : List PFrame) (alts : List (List RElem))
    (cur : List RElem) (rest : List Char) :
    parseLoop stack alts cur .normal ('*' :: rest) =
      (applyQuant cur (.star true)).bind
        (fun cur2 => parseLoop stack alts cur2 .normal rest) := by
  rw [parseLoop.eq_def]
  simp

theorem parseLoop_lit_step (stack : List PFrame) (alts : List (List RElem))
    (cur : List RElem) (c : Char) (rest : List Char)
    (h1 : c ≠ '\\') (h2 : c ≠ '(') (h3 : c ≠ '.') (h4 : c ≠ '^') (h5 : c ≠ '$')
    (h6 : c ≠ '|') (h7 : c ≠ '*') (h8 : c ≠ '+') (h9 : c ≠ '?') (h10 : c ≠ ')')
    (h11 : c ≠ '[') :
    parseLoop stack alts cur .normal (c :: rest) =
      parseLoop stack alts (.lit c :: cur) .normal rest := by
  rw [parseLoop.eq_def]
  simp [h1, h2, h3, h4, h5, h6, h7, h8, h9, h10, h11]

theorem parseLoop_trans : ∀ (l : List Char) (cur : List RElem),
    parseLoop [] [] cur .normal (l.flatMap transChar) =
      some [cur.reverse ++ l.map elemOfWild] := by
  intro l
  induction l with
  | nil =>
    intro cur
    rw [List.flatMap_nil, parseLoop.eq_def]
    simp
  | cons c l ih =>
    intro cur
    rw [List.flatMap_cons]
    by_cases hm : isMeta c = true
    · have hstar : c ≠ '*' := by
        intro h; subst h; exact absurd hm (by decide)
      have hq : c ≠ '?' := by
        intro h; subst h; exact absurd hm (by decide)
      rw [show transChar c = ['\\', c] from by simp [transChar, hm]]
      rw [show (['\\', c] : List Char) ++ l.flatMap transChar
        = '\\' :: c :: l.flatMap transChar from rfl]
      rw [parseLoop_esc_step, ih (.lit c :: cur)]
      simp [elemOfWild, hstar, hq]
    · have hm2 : isMeta c = false := by simpa using hm
      have hne : ∀ x : Char, isMeta x = true → c ≠ x := by
        intro x hx h
        subst h
        rw [hm2] at hx
        cases hx
      by_cases h7 : c = '*'
      · subst h7
        rw [show transChar '*' = ['.', '*'] from rfl]
        rw [show (['.', '*'] : List Char) ++ l.flatMap transChar
          = '.' :: '*' :: l.flatMap transChar from rfl]
        rw [parseLoop_dot_step, parseLoop_star_step]
        rw [show applyQuant (.dot :: cur) (.star true)
          = some (.star true .dot :: cur) from rfl]
        rw [Option.some_bind]
        rw [ih (.star true .dot :: cur)]
        simp [elemOfWild]
      · by_cases h9 : c = '?'
        · subst h9
          rw [show transChar '?' = ['.'] from rfl]
          rw [show (['.'] : List Char) ++ l.flatMap transChar
            = '.' :: l.flatMap transChar from rfl]
          rw [parseLoop_dot_step, ih (.dot :: cur)]
          simp [elemOfWild]
        · rw [show transChar c = [c] from by simp [transChar, hm2, h7, h9]]
          rw [show ([c] : List Char) ++ l.flatMap transChar
            = c :: l.flatMap transChar from rfl]
          rw [parseLoop_lit_step [] [] cur c _ (hne '\\' (by decide))
            (hne '(' (by decide)) (hne '.' (by decide)) (hne '^' (by decide))
            (hne '$' (by decide)) (hne '|' (by decide)) h7 (hne '+' (by decide))
            h9 (hne ')' (by decide)) (hne '[' (by decide))]
          rw [ih (.lit c :: cur)]
          simp [elemOfWild, h7, h9]

/-- The wildcard pattern always compiles, to the alternation-free sequence
of per-character elements: a `.*` for `*`, a `.` for `?`, a literal for
everything else (escaped when it is a metacharacter). -/
theorem wildcardToRegex_eq_some (p : String) :
    wildcardToRegex p = some [p.data.map elemOfWild] := by
  have h : (wildcardPattern p).data = p.data.flatMap transChar :=
    wildcardPattern_flatMap p
  rw [wildcardToRegex, compileRegex, h, parseLoop_trans p.data []]
  simp

theorem searchFrom_isSome (r : Regex) (full : List Char) :
    ∀ (t : List Char) (i : Nat), (searchFrom r full i t).isSome = true ↔
      ∃ u, u <:+ t ∧
        r.flatMap (fun seq => matchSeq full (regexFuel r full) seq u) ≠ [] := by
  intro t
  induction t with
  | nil =>
    intro i
    rw [searchFrom]
    rcases hh : (r.flatMap fun seq => matchSeq full (regexFuel r full) seq []).head?
      with _ | rest
    · have hempty := List.head?_eq_none_iff.mp hh
      simp only [Option.isSome_none, Bool.false_eq_true, false_iff, not_exists]
      intro u hcon
      rcases hcon with ⟨hu, hne⟩
      rw [List.suffix_nil.mp hu] at hne
      exact hne hempty
    · constructor
      · intro _
        exact ⟨[], List.suffix_refl _, fun he => by rw [he] at hh; cases hh⟩
      · intro _
        rfl
  | cons c ts ih =>
    intro i
    rw [searchFrom]
    rcases hh : (r.flatMap fun seq => matchSeq full (regexFuel r full) seq (c :: ts)).head?
      with _ | rest
    · have hempty := List.head?_eq_none_iff.mp hh
      show (searchFrom r full (i + 1) ts).isSome = true ↔ _
      constructor
      · intro h
        obtain ⟨u, hu, hne⟩ := (ih (i + 1)).mp h
        exact ⟨u, hu.trans (List.suffix_cons c ts), hne⟩
      · rintro ⟨u, hu, hne⟩
        rcases List.suffix_cons_iff.mp hu with rfl | hu2
        · exact absurd hempty hne
        · exact (ih (i + 1)).mpr ⟨u, hu2, hne⟩
    · constructor
      · intro _
        exact ⟨c :: ts, List.suffix_refl _, fun he => by rw [he] at hh; cases hh⟩
      · intro _
        rfl

/-- `regex.test` searches for a match anywhere: it succeeds exactly when
some suffix of the haystack carries a match of the pattern. -/
theorem regexTest_iff (r : Regex) (text : String) :
    regexTest r text = true ↔ ∃ t, t <:+ text.data ∧
      r.flatMap (fun seq => matchSeq text.data (regexFuel r text.data) seq t) ≠ [] :=
  searchFrom_isSome r text.data text.data 0

/-- C7: for a wildcard needle (contains `*` or `?`, does not start with
`/` or `^`), `matchesSearch` escapes every regex metacharacter except
`*` / `?` (character-wise translation `transChar`), turns `*` into `.*`
and `?` into `.`, compiles the result (always successfully, to the
per-character element sequence), and tests for containment anywhere in
the haystack; the spec's two concrete examples hold. -/
theorem C7_wildcard_translation :
    (∀ needle : String, (wildcardPattern needle).data = needle.data.flatMap transChar) ∧
    (∀ needle : String, wildcardToRegex needle = some [needle.data.map elemOfWild]) ∧
    (∀ text needle : String,
      headIs needle '/' = false → headIs needle '^' = false →
      (strContainsChar needle '*' || strContainsChar needle '?') = true →
      matchesSearch text needle = regexTest [needle.data.map elemOfWild] text) ∧
    (∀ (r : Regex) (text : String), regexTest r text = true ↔
      ∃ t, t <:+ text.data ∧
        r.flatMap (fun seq => matchSeq text.data (regexFuel r text.data) seq t) ≠ []) ∧
    matchesSearch "report_v2.pdf" "report_*.pdf" = true ∧
    matchesSearch "report_v2.txt" "report_*.pdf" = false := by
  refine ⟨wildcardPattern_flatMap, wildcardToRegex_eq_some, ?_, regexTest_iff,
    by decide, by decide⟩
  intro text needle hs hc hw
  rw [matchesSearch]
  rw [if_neg (by rw [hs, hc]; decide)]
  rw [if_pos hw, wildcardToRegex_eq_some needle]

/-- Witness for `C7_wildcard_translation`: the hypothesis-bearing conjunct
applied at the spec's example needle. -/
theorem C7_wildcard_translation_witness :
    matchesSearch "report_v2.pdf" "report_*.pdf" =
      regexTest [("report_*.pdf" : String).data.map elemOfWild] "report_v2.pdf" :=
  C7_wildcard_translation.2.2.1 "report_v2.pdf" "report_*.pdf"
    (by decide) (by decide) (by decide)

/-! ## Verification of the regex-fallback claim (C6) -/

/-- Counterexample to C6 as stated: the `catch` branch of `matchesSearch`
is plain `text.includes(searchTerm)`, not the full mode-3 literal matching
(which also compares the whitespace-stripped strings).  For the needle
`"/ ["` (regex mode, and `" ["` fails to compile) against the haystack
`"x/[y"`, mode-3 matching is `true` (stripping spaces turns the needle
into `"/["`, a substring of the haystack) while `matchesSearch` returns
`false`. -/
theorem C6_regex_fallback_counterexample :
    headIs "/ [" '/' = true ∧
    compileRegex (strDrop1 "/ [") = none ∧
    matchesSearch "x/[y" "/ [" = false ∧
    literalMatch "x/[y" "/ [" = true :=
  ⟨by decide, rfl, by decide, by decide⟩

/-- C6 (amended): when the needle starts with `/` or `^` and the derived
pattern fails to compile, `matchesSearch` does not raise (it is total) and
falls back to plain literal substring containment of the full needle in
the haystack — without mode 3's additional space-insensitive comparison;
in particular `matchesSearch "abc" "/["` is `false`. -/
theorem C6_regex_fallback_amended :
    (∀ text searchTerm : String,
      (headIs searchTerm '/' || headIs searchTerm '^') = true →
      compileRegex
        (if headIs searchTerm '/' then strDrop1 searchTerm else searchTerm) = none →
      matchesSearch text searchTerm = strIncludes text searchTerm) ∧
    matchesSearch "abc" "/[" = false := by
  constructor
  · intro text searchTerm h hc
    rw [matchesSearch, if_pos h, hc]
  · decide

/-- Witness for `C6_regex_fallback_amended`: applied at the spec's
example. -/
theorem C6_regex_fallback_amended_witness :
    matchesSearch "abc" "/[" = strIncludes "abc" "/[" :=
  C6_regex_fallback_amended.1 "abc" "/[" (by decide) rfl

/-! ### Association-list lemmas -/

theorem treeFind_treeSet_self (t : FolderTree) (k : String) (v : FolderNode) :
    treeFind (treeSet t k v) k = some v := by
  induction t with
  | nil => simp [treeSet, treeFind]
  | cons kv rest ih =>
    obtain ⟨k2, v2⟩ := kv
    by_cases h : k2 = k
    · subst h
      simp [treeSet, treeFind]
    · simp [treeSet, treeFind, h, ih]

theorem treeFind_treeSet_ne (t : FolderTree) {k k2 : String} (v : FolderNode)
    (h : k2 ≠ k) : treeFind (treeSet t k v) k2 = treeFind t k2 := by
  induction t with
  | nil => simp [treeSet, treeFind, Ne.symm h]
  | cons kv rest ih =>
    obtain ⟨k3, v3⟩ := kv
    by_cases h3 : k3 = k
    · subst h3
      simp [treeSet, treeFind, Ne.symm h]
    · simp only [treeSet, if_neg h3, treeFind]
      by_cases h4 : k3 = k2
      · simp [h4]
      · simp [h4, ih]

theorem treeFind_treeModify_self (t : FolderTree) (k : String)
    (f : FolderNode → FolderNode) :
    treeFind (treeModify t k f) k = (treeFind t k).map f := by
  induction t with
  | nil => simp [treeModify, treeFind]
  | cons kv rest ih =>
    obtain ⟨k2, v2⟩ := kv
    by_cases h : k2 = k
    · subst h
      simp [treeModify, treeFind]
    · simp [treeModify, treeFind, h, ih]

theorem treeFind_treeModify_ne (t : FolderTree) {k k2 : String}
    (f : FolderNode → FolderNode) (h : k2 ≠ k) :
    treeFind (treeModify t k f) k2 = treeFind t k2 := by
  induction t with
  | nil => simp [treeModify, treeFind]
  | cons kv rest ih =>
    obtain ⟨k3, v3⟩ := kv
    by_cases h3 : k3 = k
    · subst h3
      simp [treeModify, treeFind, Ne.symm h]
    · simp only [treeModify, if_neg h3, treeFind]
      by_cases h4 : k3 = k2
      · simp [h4]
      · simp [h4, ih]

theorem treeFind_ensureNode_self (t : FolderTree) (k : String) :
    treeFind (ensureNode t k) k = some ((treeFind t k).getD emptyNode) := by
  unfold ensureNode treeHas
  cases h : treeFind t k with
  | none => simp [h, treeFind_treeSet_self]
  | some v => simp [h]

theorem treeFind_ensureNode_ne (t : FolderTree) {k k2 : String} (h : k2 ≠ k) :
    treeFind (ensureNode t k) k2 = treeFind t k2 := by
  unfold ensureNode
  split
  · rfl
  · exact treeFind_treeSet_ne t emptyNode h

theorem treeFind_ensureNode_mono (t : FolderTree) (k k2 : String)
    (h : (treeFind t k2).isSome = true) :
    (treeFind (ensureNode t k) k2).isSome = true := by
  by_cases he : k2 = k
  · subst he
    rw [treeFind_ensureNode_self]
    rfl
  · rw [treeFind_ensureNode_ne t he]
    exact h

theorem treeFind_treeModify_mono (t : FolderTree) (k k2 : String)
    (f : FolderNode → FolderNode) (h : (treeFind t k2).isSome = true) :
    (treeFind (treeModify t k f) k2).isSome = true := by
  by_cases he : k2 = k
  · subst he
    rw [treeFind_treeModify_self]
    cases hf : treeFind t k2 with
    | none => rw [hf] at h; cases h
    | some v => simp [hf]
  · rw [treeFind_treeModify_ne t f he]
    exact h

theorem treeKeys_treeModify (t : FolderTree) (k : String)
    (f : FolderNode → FolderNode) : treeKeys (treeModify t k f) = treeKeys t := by
  induction t with
  | nil => rfl
  | cons kv rest ih =>
    obtain ⟨k2, v2⟩ := kv
    by_cases h : k2 = k
    · simp [treeModify, h, treeKeys]
    · simp only [treeModify, if_neg h, treeKeys, List.map_cons]
      exact congrArg (fun l => k2 :: l) ih

theorem treeFind_isSome_iff_mem (t : FolderTree) (k : String) :
    (treeFind t k).isSome = true ↔ k ∈ treeKeys t := by
  induction t with
  | nil => simp [treeFind, treeKeys]
  | cons kv rest ih =>
    obtain ⟨k2, v2⟩ := kv
    by_cases h : k2 = k
    · subst h
      simp [treeFind, treeKeys]
    · simp [treeFind, treeKeys, h, ih, Ne.symm h]

theorem mem_treeKeys_treeSet (t : FolderTree) (k : String) (v : FolderNode)
    (x : String) : x ∈ treeKeys (treeSet t k v) ↔ x ∈ treeKeys t ∨ x = k := by
  induction t with
  | nil => simp [treeSet, treeKeys]
  | cons kv rest ih =>
    obtain ⟨k2, v2⟩ := kv
    by_cases h : k2 = k
    · subst h
      have hset : treeSet ((k2, v2) :: rest) k2 v = (k2, v) :: rest := by
        simp [treeSet]
      rw [hset]
      simp only [treeKeys, List.map_cons, List.mem_cons]
      tauto
    · have hset : treeSet ((k2, v2) :: rest) k v = (k2, v2) :: treeSet rest k v := by
        simp [treeSet, h]
      rw [hset]
      simp only [treeKeys, List.map_cons, List.mem_cons]
      have ih2 : x ∈ List.map Prod.fst (treeSet rest k v) ↔
          x ∈ List.map Prod.fst rest ∨ x = k := ih
      rw [ih2]
      tauto

theorem treeKeys_nodup_treeSet (t : FolderTree) (k : String) (v : FolderNode)
    (h : (treeKeys t).Nodup) : (treeKeys (treeSet t k v)).Nodup := by
  induction t with
  | nil => simp [treeSet, treeKeys]
  | cons kv rest ih =>
    obtain ⟨k2, v2⟩ := kv
    rw [show treeKeys ((k2, v2) :: rest) = k2 :: treeKeys rest from rfl,
      List.nodup_cons] at h
    by_cases h2 : k2 = k
    · subst h2
      have hset : treeSet ((k2, v2) :: rest) k2 v = (k2, v) :: rest := by
        simp [treeSet]
      rw [hset, show treeKeys ((k2, v) :: rest) = k2 :: treeKeys rest from rfl,
        List.nodup_cons]
      exact h
    · have hset : treeSet ((k2, v2) :: rest) k v = (k2, v2) :: treeSet rest k v := by
        simp [treeSet, h2]
      rw [hset, show treeKeys ((k2, v2) :: treeSet rest k v)
        = k2 :: treeKeys (treeSet rest k v) from rfl, List.nodup_cons]
      refine ⟨?_, ih h.2⟩
      intro hmem
      rcases (mem_treeKeys_treeSet rest k v k2).mp hmem with hx | rfl
      · exact h.1 hx
      · exact h2 rfl

theorem treeKeys_nodup_ensureNode (t : FolderTree) (k : String)
    (h : (treeKeys t).Nodup) : (treeKeys (ensureNode t k)).Nodup := by
  unfold ensureNode
  split
  · exact h
  · exact treeKeys_nodup_treeSet t k emptyNode h

theorem treeKeys_nodup_treeModify (t : FolderTree) (k : String)
    (f : FolderNode → FolderNode) (h : (treeKeys t).Nodup) :
    (treeKeys (treeModify t k f)).Nodup := by
  rw [treeKeys_treeModify]
  exact h

/-! ### Generic fold helpers -/

theorem foldl_preserve {α β : Type} {f : β → α → β} {P : β → Prop}
    (hp : ∀ b a, P b → P (f b a)) :
    ∀ (l : List α) (b : β), P b → P (l.foldl f b) := by
  intro l
  induction l with
  | nil => intro b hb; exact hb
  | cons x xs ih =>
    intro b hb
    exact ih (f b x) (hp b x hb)

theorem foldl_establish {α β : Type} {f : β → α → β} {P : β → Prop}
    (hp : ∀ b a, P b → P (f b a)) :
    ∀ (l : List α) (a : α), a ∈ l → (∀ b, P (f b a)) → ∀ b, P (l.foldl f b) := by
  intro l
  induction l with
  | nil =>
    intro a ha
    cases ha
  | cons x xs ih =>
    intro a ha hest b
    rcases List.mem_cons.mp ha with rfl | hxs
    · exact foldl_preserve hp xs (f b a) (hest b)
    · exact ih a hxs hest (f b x)

/-! ### `filesAt` through the build -/

theorem filesAt_treeModify_of_files_eq (t : FolderTree) (k k2 : String)
    (f : FolderNode → FolderNode) (hf : ∀ n, (f n).files = n.files) :
    filesAt (treeModify t k f) k2 = filesAt t k2 := by
  unfold filesAt
  by_cases h : k2 = k
  · subst h
    rw [treeFind_treeModify_self]
    cases treeFind t k2 with
    | none => rfl
    | some v => simp [hf]
  · rw [treeFind_treeModify_ne t f h]

theorem filesAt_ensureNode (t : FolderTree) (k k2 : String) :
    filesAt (ensureNode t k) k2 = filesAt t k2 := by
  unfold filesAt
  by_cases h : k2 = k
  · subst h
    rw [treeFind_ensureNode_self]
    cases treeFind t k2 with
    | none => rfl
    | some v => rfl
  · rw [treeFind_ensureNode_ne t h]

theorem filesAt_insertStep (parts : List String) (tr : FolderTree) (i : Nat)
    (k : String) : filesAt (insertStep parts tr i) k = filesAt tr k := by
  simp only [insertStep]
  rw [filesAt_ensureNode,
    filesAt_treeModify_of_files_eq _ (joinSlash (parts.take i)) k
      (fun n => { n with folders := addFolderName n.folders (parts.getD i "") })
      (fun n => rfl),
    filesAt_ensureNode]

theorem filesAt_foldl_insertStep (parts : List String) :
    ∀ (l : List Nat) (tr : FolderTree) (k : String),
      filesAt (l.foldl (insertStep parts) tr) k = filesAt tr k := by
  intro l
  induction l with
  | nil => intro tr k; rfl
  | cons i l ih =>
    intro tr k
    rw [List.foldl_cons, ih, filesAt_insertStep]

theorem filesAt_insertDownload (t : FolderTree) (d : Download) (k : String) :
    filesAt (insertDownload t d) k =
      if k = parentKey d then filesAt t k ++ [d] else filesAt t k := by
  simp only [insertDownload]
  rw [filesAt_foldl_insertStep]
  by_cases h : k = parentKey d
  · subst h
    rw [if_pos rfl]
    unfold parentKey filesAt
    rw [treeFind_treeModify_self, treeFind_ensureNode_self]
    cases hf : treeFind t (joinSlash (jsSplit d.Name).dropLast) with
    | none => simp [emptyNode]
    | some v => simp
  · rw [if_neg h]
    unfold filesAt
    rw [treeFind_treeModify_ne _ _ (by simpa [parentKey] using h),
      treeFind_ensureNode_ne _ (by simpa [parentKey] using h)]

theorem filesAt_foldl_insert :
    ∀ (ds : List Download) (t0 : FolderTree) (k : String),
      filesAt (ds.foldl insertDownload t0) k =
        filesAt t0 k ++ ds.filter (fun d => decide (parentKey d = k)) := by
  intro ds
  induction ds with
  | nil => intro t0 k; simp
  | cons d ds ih =>
    intro t0 k
    rw [List.foldl_cons, ih, filesAt_insertDownload, List.filter_cons]
    by_cases h : parentKey d = k
    · simp [h.symm, List.append_assoc]
    · have h2 : ¬(k = parentKey d) := fun hh => h hh.symm
      simp [h, h2]

theorem filesAt_init (k : String) : filesAt [("", emptyNode)] k = [] := by
  unfold filesAt treeFind
  by_cases h : "" = k <;> simp [h, emptyNode, treeFind]

/-- Node files through the whole build: exactly the records whose parent
key is `k`, in encounter order. -/
theorem filesAt_buildFolderTree (downloads : List Download) (k : String) :
    filesAt (buildFolderTree downloads) k =
      downloads.filter (fun d => decide (parentKey d = k)) := by
  unfold buildFolderTree
  rw [filesAt_foldl_insert, filesAt_init]
  rfl

/-! ### Node presence and key uniqueness through the build -/

theorem insertStep_mono (parts : List String) (i : Nat) (k : String) :
    ∀ tr : FolderTree, (treeFind tr k).isSome = true →
      (treeFind (insertStep parts tr i) k).isSome = true := by
  intro tr h
  simp only [insertStep]
  exact treeFind_ensureNode_mono _ _ _
    (treeFind_treeModify_mono _ _ _ _ (treeFind_ensureNode_mono _ _ _ h))

theorem insertStep_est (parts : List String) (i : Nat) :
    ∀ tr : FolderTree,
      (treeFind (insertStep parts tr i) (joinSlash (parts.take i))).isSome = true := by
  intro tr
  simp only [insertStep]
  apply treeFind_ensureNode_mono
  apply treeFind_treeModify_mono
  rw [treeFind_ensureNode_self]
  rfl

theorem insertDownload_mono (d : Download) (k : String) :
    ∀ t : FolderTree, (treeFind t k).isSome = true →
      (treeFind (insertDownload t d) k).isSome = true := by
  intro t h
  simp only [insertDownload]
  apply foldl_preserve (fun tr i hh => insertStep_mono _ i k tr hh)
  exact treeFind_treeModify_mono _ _ _ _ (treeFind_ensureNode_mono _ _ _ h)

theorem insertDownload_isSome_prefix (t : FolderTree) (d : Download) (i : Nat)
    (hi : i < (jsSplit d.Name).length) :
    (treeFind (insertDownload t d)
      (joinSlash ((jsSplit d.Name).take i))).isSome = true := by
  by_cases hlast : i = (jsSplit d.Name).length - 1
  · subst hlast
    simp only [insertDownload]
    apply foldl_preserve (fun tr j hh => insertStep_mono _ j _ tr hh)
    rw [← List.dropLast_eq_take]
    apply treeFind_treeModify_mono
    rw [treeFind_ensureNode_self]
    rfl
  · have hi2 : i ∈ List.range ((jsSplit d.Name).length - 1) := by
      rw [List.mem_range]
      omega
    simp only [insertDownload]
    exact foldl_establish (fun tr j hh => insertStep_mono _ j _ tr hh)
      _ i hi2 (fun tr => insertStep_est _ i tr) _

theorem insertStep_nodup (parts : List String) (i : Nat) :
    ∀ tr : FolderTree, (treeKeys tr).Nodup →
      (treeKeys (insertStep parts tr i)).Nodup := by
  intro tr h
  simp only [insertStep]
  exact treeKeys_nodup_ensureNode _ _
    (treeKeys_nodup_treeModify _ _ _ (treeKeys_nodup_ensureNode _ _ h))

theorem insertDownload_nodup (d : Download) :
    ∀ t : FolderTree, (treeKeys t).Nodup →
      (treeKeys (insertDownload t d)).Nodup := by
  intro t h
  simp only [insertDownload]
  apply foldl_preserve (fun tr i hh => insertStep_nodup _ i tr hh)
  exact treeKeys_nodup_treeModify _ _ _ (treeKeys_nodup_ensureNode _ _ h)

theorem buildFolderTree_nodup (downloads : List Download) :
    (treeKeys (buildFolderTree downloads)).Nodup := by
  unfold buildFolderTree
  apply foldl_preserve (fun t d hh => insertDownload_nodup d t hh)
  simp [treeKeys]

theorem buildFolderTree_root (downloads : List Download) :
    (treeFind (buildFolderTree downloads) "").isSome = true := by
  unfold buildFolderTree
  apply foldl_preserve (fun t d hh => insertDownload_mono d "" t hh)
  rfl

theorem buildFolderTree_isSome_prefix (downloads : List Download) (d : Download)
    (hd : d ∈ downloads) (i : Nat) (hi : i < (jsSplit d.Name).length) :
    (treeFind (buildFolderTree downloads)
      (joinSlash ((jsSplit d.Name).take i))).isSome = true := by
  unfold buildFolderTree
  exact foldl_establish (fun t r hh => insertDownload_mono r _ t hh) downloads d hd
    (fun t => insertDownload_isSome_prefix t d i hi) _

/-- C1: after `buildFolderTree`, the root node (key `""`) exists even for
an empty record list; the tree keys are unique, so every path that is a
strict `/`-boundary prefix of some record name (`parts.take i` joined, for
`i < parts.length`) has exactly one node; every record appears in the
files of its immediate parent's node, and in no other node's files. -/
theorem C1_folder_tree_invariants (downloads : List Download) :
    (treeFind (buildFolderTree downloads) "").isSome = true ∧
    (treeKeys (buildFolderTree downloads)).Nodup ∧
    (∀ d ∈ downloads, ∀ i, i < (jsSplit d.Name).length →
      (treeFind (buildFolderTree downloads)
        (joinSlash ((jsSplit d.Name).take i))).isSome = true) ∧
    (∀ d ∈ downloads, d ∈ filesAt (buildFolderTree downloads) (parentKey d)) ∧
    (∀ d ∈ downloads, ∀ k : String,
      d ∈ filesAt (buildFolderTree downloads) k → k = parentKey d) := by
  refine ⟨buildFolderTree_root downloads, buildFolderTree_nodup downloads,
    ?_, ?_, ?_⟩
  · intro d hd i hi
    exact buildFolderTree_isSome_prefix downloads d hd i hi
  · intro d hd
    rw [filesAt_buildFolderTree]
    exact List.mem_filter.mpr ⟨hd, by simp⟩
  · intro d hd k hk
    rw [filesAt_buildFolderTree] at hk
    have h2 := (List.mem_filter.mp hk).2
    simp only [decide_eq_true_eq] at h2
    exact h2.symm

/-- Witness for `C1_folder_tree_invariants` at a concrete one-record
list. -/
theorem C1_folder_tree_invariants_witness :
    (treeFind (buildFolderTree [⟨"a/b/x.pdf", "https://h/a/b/x.pdf", 100, 0, ""⟩])
      "").isSome = true ∧
    (⟨"a/b/x.pdf", "https://h/a/b/x.pdf", 100, 0, ""⟩ : Download) ∈
      filesAt (buildFolderTree [⟨"a/b/x.pdf", "https://h/a/b/x.pdf", 100, 0, ""⟩])
        (parentKey ⟨"a/b/x.pdf", "https://h/a/b/x.pdf", 100, 0, ""⟩) :=
  ⟨(C1_folder_tree_invariants [⟨"a/b/x.pdf", "https://h/a/b/x.pdf", 100, 0, ""⟩]).1,
   (C1_folder_tree_invariants
     [⟨"a/b/x.pdf", "https://h/a/b/x.pdf", 100, 0, ""⟩]).2.2.2.1
     ⟨"a/b/x.pdf", "https://h/a/b/x.pdf", 100, 0, ""⟩ (by decide)⟩

theorem mem_sortFiles {sortBy : String} {files : List Download} {d : Download} :
    d ∈ sortFiles sortBy files ↔ d ∈ files := by
  unfold sortFiles
  split
  · exact List.mem_insertionSort _
  · split
    · exact List.mem_insertionSort _
    · split
      · exact List.mem_insertionSort _
      · split
        · exact List.mem_insertionSort _
        · split
          · exact List.mem_insertionSort _
          · exact Iff.rfl

theorem not_mem_filterDownloads_of_zero {searchTerm : String}
    {fileTypes : List String} {downloads : List Download} {d : Download}
    (h : d.Length = 0) : d ∉ filterDownloads downloads searchTerm fileTypes true := by
  intro hmem
  unfold filterDownloads at hmem
  have h2 := List.of_mem_filter hmem
  rw [if_pos (by simp [h])] at h2
  cases h2

/-- C3: a record of length 0 never appears in the default search-mode or
browse-mode result set, for every search text, path, type filter and sort
key. -/
theorem C3_zero_byte_exclusion :
    (∀ (downloads : List Download) (searchTerm : String)
      (activeFileTypes : List String) (sortBy : String) (d : Download),
      d.Length = 0 → d ∉ searchResults downloads searchTerm activeFileTypes sortBy) ∧
    (∀ (downloads : List Download) (activeFileTypes : List String)
      (sortBy pathKey : String) (d : Download), d.Length = 0 →
      BrowseItem.file d ∉
        browseItems (buildFolderTree downloads) activeFileTypes sortBy pathKey) := by
  constructor
  · intro downloads searchTerm activeFileTypes sortBy d h hmem
    rw [searchResults, mem_sortFiles] at hmem
    exact not_mem_filterDownloads_of_zero h hmem
  · intro downloads activeFileTypes sortBy pathKey d h hmem
    rw [browseItems] at hmem
    rcases hfind : treeFind (buildFolderTree downloads) pathKey with _ | node
    · rw [hfind] at hmem
      cases hmem
    · rw [hfind] at hmem
      rcases List.mem_append.mp hmem with hf | hf
      · rcases List.mem_map.mp hf with ⟨name, _, hcon⟩
        cases hcon
      · rcases List.mem_map.mp hf with ⟨d2, hd2, hcon⟩
        have hdd : d2 = d := by
          injection hcon
        subst hdd
        rw [mem_sortFiles] at hd2
        exact not_mem_filterDownloads_of_zero h hd2

/-- Witness for `C3_zero_byte_exclusion` at a concrete zero-length
record. -/
theorem C3_zero_byte_exclusion_witness :
    (⟨"a/z.pdf", "https://h/a/z.pdf", 0, 0, ""⟩ : Download) ∉
      searchResults [⟨"a/z.pdf", "https://h/a/z.pdf", 0, 0, ""⟩] "z" [] "name-asc" :=
  C3_zero_byte_exclusion.1 [⟨"a/z.pdf", "https://h/a/z.pdf", 0, 0, ""⟩]
    "z" [] "name-asc" ⟨"a/z.pdf", "https://h/a/z.pdf", 0, 0, ""⟩ rfl

theorem insertionSort_filter_key {α : Type} (r : α → α → Prop) [DecidableRel r]
    (p : α → Bool) (hp : ∀ a b : α, p a = true → p b = true → r a b)
    (l : List α) : (l.insertionSort r).filter p = l.filter p := by
  have hsub : List.Sublist (l.filter p) l := List.filter_sublist l
  have hpw : (l.filter p).Pairwise r := List.pairwise_of_forall_mem_list
    (fun a ha b hb => hp a b (List.of_mem_filter ha) (List.of_mem_filter hb))
  have hs3 := (List.sublist_insertionSort hpw hsub).filter p
  rw [List.filter_eq_self.mpr (fun a ha => List.of_mem_filter ha)] at hs3
  have hlen : ((l.insertionSort r).filter p).length = (l.filter p).length :=
    ((List.perm_insertionSort r l).filter p).length_eq
  exact (hs3.eq_of_length hlen.symm).symm

theorem lexLe_iff : ∀ l₁ l₂ : List Char, lexLe l₁ l₂ = true ↔ ¬ List.lt l₂ l₁
  | [], [] => iff_of_true rfl (fun h => nomatch h)
  | [], d :: ds => iff_of_true rfl (fun h => nomatch h)
  | c :: cs, [] => iff_of_false (by simp [lexLe]) (fun hn => hn (List.lt.nil c cs))
  | c :: cs, d :: ds => by
    by_cases hcd : c = d
    · subst hcd
      rw [show lexLe (c :: cs) (c :: ds) = lexLe cs ds from by simp [lexLe]]
      rw [lexLe_iff cs ds]
      constructor
      · intro h hlt
        cases hlt with
        | head _ _ h1 => exact lt_irrefl c h1
        | tail _ _ h3 => exact h h3
      · intro hn h3
        exact hn (List.lt.tail (lt_irrefl c) (lt_irrefl c) h3)
    · rw [show lexLe (c :: cs) (d :: ds) = decide (c < d) from by simp [lexLe, hcd]]
      constructor
      · intro hd hlt
        have hcd2 : c < d := of_decide_eq_true hd
        cases hlt with
        | head _ _ h1 => exact lt_asymm hcd2 h1
        | tail h1 h2 _ => exact h2 hcd2
      · intro hn
        apply decide_eq_true
        rcases lt_trichotomy c d with h | h | h
        · exact h
        · exact absurd h hcd
        · exact absurd (List.lt.head ds cs h) hn

/-- The JavaScript comparator agrees with the standard string order. -/
theorem jsStrLe_iff_le (a b : String) : jsStrLe a b = true ↔ a ≤ b := by
  rw [jsStrLe, lexLe_iff]
  constructor
  · intro h hba
    apply h
    rw [List.lt_iff_lex_lt]
    exact String.lt_iff_toList_lt.mp hba
  · intro hle hlt
    rw [List.lt_iff_lex_lt] at hlt
    exact hle (String.lt_iff_toList_lt.mpr hlt)

/-- C4: in browse mode all surviving folders come before all files, the
folders sorted case-sensitively ascending (a sorted permutation of the
pruned candidates); files are ordered by the current sort key, and for
the size and modified keys records with equal keys keep their encounter
order (filtering the result by any fixed key value returns those records
in input order — the formal reading of stability); the spec's
three-record scenario at the root under `name-asc` with no filters yields
exactly `[folder "bin", folder "docs"]` and no files. -/
theorem C4_browse_order_and_stability :
    (∀ l : List String,
      (sortStrings l).Sorted (fun a b : String => a ≤ b) ∧ (sortStrings l).Perm l) ∧
    (∀ (t : FolderTree) (types : List String) (sortBy pathKey : String)
      (node : FolderNode), treeFind t pathKey = some node →
      browseItems t types sortBy pathKey =
        (sortStrings (node.folders.filter
          (fun name => folderHasMatchingFiles t types pathKey name))).map
            BrowseItem.folder ++
          (sortFiles sortBy (filterDownloads node.files "" types true)).map
            BrowseItem.file) ∧
    (∀ files : List Download,
      (sortFiles "size-desc" files).Sorted (fun a b => b.Length ≤ a.Length) ∧
      (sortFiles "size-asc" files).Sorted (fun a b => a.Length ≤ b.Length) ∧
      (sortFiles "date-desc" files).Sorted
        (fun a b => b.LastModified ≤ a.LastModified) ∧
      (sortFiles "date-asc" files).Sorted
        (fun a b => a.LastModified ≤ b.LastModified) ∧
      (sortFiles "name-asc" files).Sorted
        (fun a b => baseNameLower a ≤ baseNameLower b)) ∧
    (∀ (files : List Download) (n : Nat),
      (sortFiles "size-desc" files).filter (fun d => d.Length == n) =
        files.filter (fun d => d.Length == n) ∧
      (sortFiles "size-asc" files).filter (fun d => d.Length == n) =
        files.filter (fun d => d.Length == n)) ∧
    (∀ (files : List Download) (m : Int),
      (sortFiles "date-desc" files).filter (fun d => d.LastModified == m) =
        files.filter (fun d => d.LastModified == m) ∧
      (sortFiles "date-asc" files).filter (fun d => d.LastModified == m) =
        files.filter (fun d => d.LastModified == m)) ∧
    browseItems (buildFolderTree scenarioDownloads) [] "name-asc" ""
      = [BrowseItem.folder "bin", BrowseItem.folder "docs"] := by
  refine ⟨?_, ?_, ?_, ?_, ?_, by decide⟩
  · intro l
    letI : IsTotal String (fun a b : String => jsStrLe a b = true) :=
      ⟨fun a b => by
        rcases le_total a b with h | h
        · exact Or.inl ((jsStrLe_iff_le a b).mpr h)
        · exact Or.inr ((jsStrLe_iff_le b a).mpr h)⟩
    letI : IsTrans String (fun a b : String => jsStrLe a b = true) :=
      ⟨fun a b c hab hbc => (jsStrLe_iff_le a c).mpr
        (le_trans ((jsStrLe_iff_le a b).mp hab) ((jsStrLe_iff_le b c).mp hbc))⟩
    refine ⟨?_, List.perm_insertionSort _ l⟩
    exact (List.sorted_insertionSort _ l).imp (fun h => (jsStrLe_iff_le _ _).mp h)
  · intro t types sortBy pathKey node hfind
    rw [browseItems, hfind]
  · intro files
    refine ⟨?_, ?_, ?_, ?_, ?_⟩
    · letI : IsTotal Download (fun a b : Download => b.Length ≤ a.Length) :=
        ⟨fun a b => Nat.le_total b.Length a.Length⟩
      letI : IsTrans Download (fun a b : Download => b.Length ≤ a.Length) :=
        ⟨fun a b c hab hbc => Nat.le_trans hbc hab⟩
      exact List.sorted_insertionSort _ files
    · letI : IsTotal Download (fun a b : Download => a.Length ≤ b.Length) :=
        ⟨fun a b => Nat.le_total a.Length b.Length⟩
      letI : IsTrans Download (fun a b : Download => a.Length ≤ b.Length) :=
        ⟨fun a b c hab hbc => Nat.le_trans hab hbc⟩
      exact List.sorted_insertionSort _ files
    · letI : IsTotal Download (fun a b : Download => b.LastModified ≤ a.LastModified) :=
        ⟨fun a b => Int.le_total b.LastModified a.LastModified⟩
      letI : IsTrans Download (fun a b : Download => b.LastModified ≤ a.LastModified) :=
        ⟨fun a b c hab hbc => Int.le_trans hbc hab⟩
      exact List.sorted_insertionSort _ files
    · letI : IsTotal Download (fun a b : Download => a.LastModified ≤ b.LastModified) :=
        ⟨fun a b => Int.le_total a.LastModified b.LastModified⟩
      letI : IsTrans Download (fun a b : Download => a.LastModified ≤ b.LastModified) :=
        ⟨fun a b c hab hbc => Int.le_trans hab hbc⟩
      exact List.sorted_insertionSort _ files
    · letI : IsTotal Download (fun a b : Download => baseNameLower a ≤ baseNameLower b) :=
        ⟨fun a b => le_total (baseNameLower a) (baseNameLower b)⟩
      letI : IsTrans Download (fun a b : Download => baseNameLower a ≤ baseNameLower b) :=
        ⟨fun a b c hab hbc => le_trans hab hbc⟩
      exact List.sorted_insertionSort _ files
  · intro files n
    constructor
    · exact insertionSort_filter_key _ _ (fun a b ha hb => by
        have ha2 : a.Length = n := by simpa using ha
        have hb2 : b.Length = n := by simpa using hb
        omega) files
    · exact insertionSort_filter_key _ _ (fun a b ha hb => by
        have ha2 : a.Length = n := by simpa using ha
        have hb2 : b.Length = n := by simpa using hb
        omega) files
  · intro files m
    constructor
    · exact insertionSort_filter_key _ _ (fun a b ha hb => by
        have ha2 : a.LastModified = m := by simpa using ha
        have hb2 : b.LastModified = m := by simpa using hb
        omega) files
    · exact insertionSort_filter_key _ _ (fun a b ha hb => by
        have ha2 : a.LastModified = m := by simpa using ha
        have hb2 : b.LastModified = m := by simpa using hb
        omega) files

/-- Witness for `C4_browse_order_and_stability`: the hypothesis-bearing
conjunct applied at the scenario tree's root node. -/
theorem C4_browse_order_and_stability_witness :
    browseItems (buildFolderTree scenarioDownloads) [] "name-asc" "" =
      (sortStrings ((⟨["docs", "bin"], []⟩ : FolderNode).folders.filter
        (fun name => folderHasMatchingFiles (buildFolderTree scenarioDownloads)
          [] "" name))).map BrowseItem.folder ++
      (sortFiles "name-asc" (filterDownloads
        ((⟨["docs", "bin"], []⟩ : FolderNode).files) "" [] true)).map
          BrowseItem.file :=
  C4_browse_order_and_stability.2.1 (buildFolderTree scenarioDownloads) []
    "name-asc" "" ⟨["docs", "bin"], []⟩ (by decide)

theorem splitSlashAux_ne_nil (l : List Char) : splitSlashAux l ≠ [] := by
  cases l with
  | nil => simp [splitSlashAux]
  | cons c cs =>
    unfold splitSlashAux
    cases h : splitSlashAux cs with
    | nil => simp
    | cons seg rest => by_cases hc : c = '/' <;> simp [hc]

theorem jsSplit_length_pos (s : String) : 0 < (jsSplit s).length := by
  unfold jsSplit
  rw [List.length_map]
  exact List.length_pos.mpr (splitSlashAux_ne_nil s.data)

theorem strAppend_assoc (a b c : String) : a ++ b ++ c = a ++ (b ++ c) :=
  String.ext (by simp [String.data_append, List.append_assoc])

theorem joinSlash_cons_cons (a b : String) (rest : List String) :
    joinSlash (a :: b :: rest) = a ++ "/" ++ joinSlash (b :: rest) := rfl

theorem joinSlash_ne_empty (l : List String) (hne : l ≠ [])
    (hwf : ∀ seg ∈ l, seg ≠ "") : joinSlash l ≠ "" := by
  cases l with
  | nil => cases hne rfl
  | cons a rest =>
    cases rest with
    | nil => exact hwf a (List.mem_cons_self a [])
    | cons b rest2 =>
      rw [joinSlash_cons_cons]
      intro hcon
      have hlen := congrArg (fun s : String => s.data.length) hcon
      simp [String.data_append] at hlen

theorem joinSlash_append_last (l : List String) (x : String) (h : l ≠ []) :
    joinSlash (l ++ [x]) = joinSlash l ++ "/" ++ x := by
  induction l with
  | nil => cases h rfl
  | cons a rest ih =>
    cases rest with
    | nil => rfl
    | cons b rest2 =>
      rw [show ((a :: b :: rest2) ++ [x]) = a :: ((b :: rest2) ++ [x]) from rfl]
      rw [show ((b :: rest2) ++ [x]) = b :: (rest2 ++ [x]) from rfl]
      rw [joinSlash_cons_cons]
      rw [show (b :: (rest2 ++ [x])) = (b :: rest2) ++ [x] from rfl]
      rw [ih (by simp), joinSlash_cons_cons]
      apply String.ext
      simp [String.data_append, List.append_assoc]

theorem joinSlash_take_succ (l : List String) (i : Nat) (hi : i < l.length)
    (hwf : ∀ seg ∈ l, seg ≠ "") :
    joinSlash (l.take (i + 1)) = joinKey (joinSlash (l.take i)) (l.getD i "") := by
  rcases Nat.eq_zero_or_pos i with rfl | hpos
  · cases l with
    | nil => simp at hi
    | cons a rest =>
      show joinSlash [a] = joinKey (joinSlash []) a
      simp [joinSlash, joinKey]
  · have hgd : l.getD i "" = l[i] := List.getD_eq_getElem l "" hi
    have htake : l.take (i + 1) = l.take i ++ [l.getD i ""] := by
      rw [hgd, ← List.take_concat_get' l i hi]
    have htne : l.take i ≠ [] := by
      intro hcon
      rcases List.take_eq_nil_iff.mp hcon with h | h
      · omega
      · subst h
        simp at hi
    rw [htake, joinSlash_append_last _ _ htne, joinKey,
      if_neg (joinSlash_ne_empty _ htne (fun seg hseg => hwf seg (List.mem_of_mem_take hseg)))]

theorem append_cons_inj_of_not_mem {α : Type} {c : α} :
    ∀ {l₁ l₂ r₁ r₂ : List α}, c ∉ l₁ → c ∉ l₂ →
      l₁ ++ c :: r₁ = l₂ ++ c :: r₂ → l₁ = l₂ ∧ r₁ = r₂ := by
  intro l₁
  induction l₁ with
  | nil =>
    intro l₂ r₁ r₂ h1 h2 heq
    cases l₂ with
    | nil => simpa using heq
    | cons x xs =>
      rw [List.nil_append] at heq
      injection heq with hx hrest
      subst hx
      exact absurd (List.mem_cons_self c xs) h2
  | cons a l₁ ih =>
    intro l₂ r₁ r₂ h1 h2 heq
    cases l₂ with
    | nil =>
      rw [List.nil_append] at heq
      injection heq with hx hrest
      subst hx
      exact absurd (List.mem_cons_self a l₁) h1
    | cons b l₂ =>
      injection heq with hx hrest
      subst hx
      obtain ⟨he1, he2⟩ := ih (fun hm => h1 (List.mem_cons_of_mem a hm))
        (fun hm => h2 (List.mem_cons_of_mem a hm)) hrest
      exact ⟨by rw [he1], he2⟩

theorem append_slash_inj {p q s t : String} (hs : '/' ∉ s.data)
    (ht : '/' ∉ t.data) (h : p ++ "/" ++ s = q ++ "/" ++ t) : p = q ∧ s = t := by
  have hd : p.data ++ '/' :: s.data = q.data ++ '/' :: t.data := by
    have h2 := congrArg String.data h
    simpa [String.data_append] using h2
  have hrev : s.data.reverse ++ '/' :: p.data.reverse =
      t.data.reverse ++ '/' :: q.data.reverse := by
    have h3 := congrArg List.reverse hd
    simp only [List.reverse_append, List.reverse_cons] at h3
    simpa [List.append_assoc] using h3
  obtain ⟨h4, h5⟩ := append_cons_inj_of_not_mem
    (fun hm => hs (List.mem_reverse.mp hm))
    (fun hm => ht (List.mem_reverse.mp hm)) hrev
  constructor
  · exact String.ext (List.reverse_injective h5)
  · exact String.ext (List.reverse_injective h4)

theorem joinKey_ne_empty (p s : String) (hs : s ≠ "") : joinKey p s ≠ "" := by
  unfold joinKey
  split
  · exact hs
  · intro hcon
    have hlen := congrArg (fun x : String => x.data.length) hcon
    simp [String.data_append] at hlen

theorem joinKey_inj {p q s t : String} (hs2 : '/' ∉ s.data)
    (ht2 : '/' ∉ t.data) (h : joinKey p s = joinKey q t) :
    p = q ∧ s = t := by
  unfold joinKey at h
  by_cases hp : p = "" <;> by_cases hq : q = ""
  · rw [if_pos hp, if_pos hq] at h
    exact ⟨hp.trans hq.symm, h⟩
  · rw [if_pos hp, if_neg hq] at h
    exfalso
    apply hs2
    rw [h]
    simp [String.data_append]
  · rw [if_neg hp, if_pos hq] at h
    exfalso
    apply ht2
    rw [← h]
    simp [String.data_append]
  · rw [if_neg hp, if_neg hq] at h
    exact append_slash_inj hs2 ht2 h

/-! ### Child-folder registration through the build (towards C2) -/

theorem mem_addFolderName {l : List String} {s x : String} :
    x ∈ addFolderName l s ↔ x ∈ l ∨ x = s := by
  unfold addFolderName
  split
  · constructor
    · exact fun h => Or.inl h
    · intro h
      rcases h with h | rfl
      · exact h
      · assumption
  · simp

theorem foldersAt_pushFile (t : FolderTree) (k k2 : String) (d : Download) :
    foldersAt (treeModify t k (fun n => { n with files := n.files ++ [d] })) k2 =
      foldersAt t k2 := by
  unfold foldersAt
  by_cases h : k2 = k
  · rw [h, treeFind_treeModify_self]
    cases treeFind t k with
    | none => rfl
    | some v => rfl
  · rw [treeFind_treeModify_ne _ _ h]

theorem foldersAt_ensureNode (t : FolderTree) (k k2 : String) :
    foldersAt (ensureNode t k) k2 = foldersAt t k2 := by
  unfold foldersAt
  by_cases h : k2 = k
  · subst h
    rw [treeFind_ensureNode_self]
    cases treeFind t k2 with
    | none => rfl
    | some v => rfl
  · rw [treeFind_ensureNode_ne t h]

theorem foldersAt_insertStep (parts : List String) (tr : FolderTree) (i : Nat)
    (k : String) :
    foldersAt (insertStep parts tr i) k =
      if k = joinSlash (parts.take i) then
        addFolderName (foldersAt tr k) (parts.getD i "")
      else foldersAt tr k := by
  simp only [insertStep]
  rw [foldersAt_ensureNode]
  by_cases h : k = joinSlash (parts.take i)
  · rw [if_pos h, h]
    unfold foldersAt
    rw [treeFind_treeModify_self, treeFind_ensureNode_self]
    cases treeFind tr (joinSlash (parts.take i)) with
    | none => rfl
    | some v => rfl
  · rw [if_neg h]
    unfold foldersAt
    rw [treeFind_treeModify_ne _ _ h, treeFind_ensureNode_ne _ h]

theorem foldersAt_range_foldl_sound (parts : List String) :
    ∀ (m : Nat) (tr : FolderTree) (k x : String),
      x ∈ foldersAt ((List.range m).foldl (insertStep parts) tr) k →
      x ∈ foldersAt tr k ∨
        ∃ i < m, joinSlash (parts.take i) = k ∧ parts.getD i "" = x := by
  intro m
  induction m with
  | zero =>
    intro tr k x h
    exact Or.inl h
  | succ m ih =>
    intro tr k x h
    rw [List.range_succ, List.foldl_append] at h
    simp only [List.foldl_cons, List.foldl_nil] at h
    rw [foldersAt_insertStep] at h
    by_cases hk : k = joinSlash (parts.take m)
    · rw [if_pos hk] at h
      rcases mem_addFolderName.mp h with h2 | rfl
      · rcases ih tr k x h2 with h3 | ⟨i, hi, h4⟩
        · exact Or.inl h3
        · exact Or.inr ⟨i, by omega, h4⟩
      · exact Or.inr ⟨m, by omega, hk.symm, rfl⟩
    · rw [if_neg hk] at h
      rcases ih tr k x h with h3 | ⟨i, hi, h4⟩
      · exact Or.inl h3
      · exact Or.inr ⟨i, by omega, h4⟩

theorem foldersAt_insertDownload_sound (t : FolderTree) (d : Download)
    (k x : String) (h : x ∈ foldersAt (insertDownload t d) k) :
    x ∈ foldersAt t k ∨
      ∃ i, i + 1 < (jsSplit d.Name).length ∧
        joinSlash ((jsSplit d.Name).take i) = k ∧ (jsSplit d.Name).getD i "" = x := by
  simp only [insertDownload] at h
  rcases foldersAt_range_foldl_sound (jsSplit d.Name) _ _ k x h with h2 | ⟨i, hi, h3, h4⟩
  · rw [foldersAt_pushFile, foldersAt_ensureNode] at h2
    exact Or.inl h2
  · right
    refine ⟨i, ?_, h3, h4⟩
    have := jsSplit_length_pos d.Name
    omega

theorem foldersAt_init (k x : String) : x ∈ foldersAt [("", emptyNode)] k → False := by
  unfold foldersAt treeFind
  by_cases h : "" = k <;> simp [h, emptyNode, treeFind]

theorem foldersAt_buildFolderTree_sound (downloads : List Download)
    (k x : String) (h : x ∈ foldersAt (buildFolderTree downloads) k) :
    ∃ d ∈ downloads, ∃ i, i + 1 < (jsSplit d.Name).length ∧
      joinSlash ((jsSplit d.Name).take i) = k ∧ (jsSplit d.Name).getD i "" = x := by
  unfold buildFolderTree at h
  suffices hgen : ∀ (ds : List Download) (t0 : FolderTree),
      x ∈ foldersAt (ds.foldl insertDownload t0) k →
      x ∈ foldersAt t0 k ∨ ∃ d ∈ ds, ∃ i, i + 1 < (jsSplit d.Name).length ∧
        joinSlash ((jsSplit d.Name).take i) = k ∧ (jsSplit d.Name).getD i "" = x by
    rcases hgen downloads [("", emptyNode)] h with h2 | h2
    · exact absurd h2 (fun hh => foldersAt_init k x hh)
    · exact h2
  intro ds
  induction ds with
  | nil =>
    intro t0 h2
    exact Or.inl h2
  | cons d2 ds ih =>
    intro t0 h2
    rw [List.foldl_cons] at h2
    rcases ih (insertDownload t0 d2) h2 with h3 | ⟨d3, hd3, i, hi, h4, h5⟩
    · rcases foldersAt_insertDownload_sound t0 d2 k x h3 with h4 | ⟨i, hi, h5, h6⟩
      · exact Or.inl h4
      · exact Or.inr ⟨d2, List.mem_cons_self _ _, i, hi, h5, h6⟩
    · exact Or.inr ⟨d3, List.mem_cons_of_mem _ hd3, i, hi, h4, h5⟩

theorem foldersAt_insertStep_mono (parts : List String) (i : Nat) (k x : String) :
    ∀ tr : FolderTree, x ∈ foldersAt tr k → x ∈ foldersAt (insertStep parts tr i) k := by
  intro tr h
  rw [foldersAt_insertStep]
  split
  · exact mem_addFolderName.mpr (Or.inl h)
  · exact h

theorem foldersAt_insertStep_est (parts : List String) (i : Nat) :
    ∀ tr : FolderTree,
      (parts.getD i "") ∈ foldersAt (insertStep parts tr i) (joinSlash (parts.take i)) := by
  intro tr
  rw [foldersAt_insertStep, if_pos rfl]
  exact mem_addFolderName.mpr (Or.inr rfl)

theorem foldersAt_insertDownload_mono (d : Download) (k x : String) :
    ∀ t : FolderTree, x ∈ foldersAt t k → x ∈ foldersAt (insertDownload t d) k := by
  intro t h
  simp only [insertDownload]
  apply foldl_preserve (fun tr i hh => foldersAt_insertStep_mono _ i k x tr hh)
  rw [foldersAt_pushFile, foldersAt_ensureNode]
  exact h

theorem foldersAt_insertDownload_complete (t : FolderTree) (d : Download) (i : Nat)
    (hi : i + 1 < (jsSplit d.Name).length) :
    (jsSplit d.Name).getD i "" ∈
      foldersAt (insertDownload t d) (joinSlash ((jsSplit d.Name).take i)) := by
  simp only [insertDownload]
  have hi2 : i ∈ List.range ((jsSplit d.Name).length - 1) := by
    rw [List.mem_range]
    omega
  exact foldl_establish
    (fun tr j hh => foldersAt_insertStep_mono (jsSplit d.Name) j _ _ tr hh)
    _ i hi2 (fun tr => foldersAt_insertStep_est (jsSplit d.Name) i tr) _

theorem foldersAt_buildFolderTree_complete (downloads : List Download)
    (d : Download) (hd : d ∈ downloads) (i : Nat)
    (hi : i + 1 < (jsSplit d.Name).length) :
    (jsSplit d.Name).getD i "" ∈
      foldersAt (buildFolderTree downloads) (joinSlash ((jsSplit d.Name).take i)) := by
  unfold buildFolderTree
  exact foldl_establish (fun t r hh => foldersAt_insertDownload_mono r _ _ t hh)
    downloads d hd (fun t => foldersAt_insertDownload_complete t d i hi) _

/-! ### `checkNode` on built trees (towards C2) -/

theorem getD_mem_of_lt {l : List String} {i : Nat} (h : i < l.length) :
    l.getD i "" ∈ l := by
  rw [List.getD_eq_getElem l "" h]
  exact List.getElem_mem h

theorem checkNode_mono (t : FolderTree) (types : List String) :
    ∀ fuel fuel2 : Nat, fuel ≤ fuel2 → ∀ k : String,
      checkNode t types fuel k = true → checkNode t types fuel2 k = true := by
  intro fuel
  induction fuel with
  | zero =>
    intro fuel2 hle k h
    simp [checkNode] at h
  | succ fuel ih =>
    intro fuel2 hle k h
    obtain ⟨f2, rfl⟩ : ∃ f2, fuel2 = f2 + 1 := ⟨fuel2 - 1, by omega⟩
    simp only [checkNode] at h ⊢
    split at h
    · simp at h
    · rename_i node hf
      by_cases hfl : node.files.any (eligibleFile types) = true
      · rw [if_pos hfl]
      · rw [if_neg hfl] at h ⊢
        rw [List.any_eq_true] at h ⊢
        obtain ⟨sub, hsub, hc⟩ := h
        exact ⟨sub, hsub, ih f2 (by omega) _ hc⟩

theorem checkNode_sound (downloads : List Download) (types : List String)
    (hwf : wfDownloads downloads) :
    ∀ fuel k, checkNode (buildFolderTree downloads) types fuel k = true →
      ∃ d ∈ downloads, eligibleFile types d = true ∧
        ∃ j, j < (jsSplit d.Name).length ∧
          joinSlash ((jsSplit d.Name).take j) = k := by
  intro fuel
  induction fuel with
  | zero =>
    intro k h
    simp [checkNode] at h
  | succ fuel ih =>
    intro k h
    simp only [checkNode] at h
    split at h
    · simp at h
    · rename_i node hf
      by_cases hfl : node.files.any (eligibleFile types) = true
      · rw [List.any_eq_true] at hfl
        obtain ⟨d, hd, he⟩ := hfl
        have hdf : d ∈ filesAt (buildFolderTree downloads) k := by
          unfold filesAt
          rw [hf]
          exact hd
        rw [filesAt_buildFolderTree, List.mem_filter] at hdf
        obtain ⟨hdm, hpk⟩ := hdf
        rw [decide_eq_true_iff] at hpk
        refine ⟨d, hdm, he, (jsSplit d.Name).length - 1, ?_, ?_⟩
        · have := jsSplit_length_pos d.Name
          omega
        · unfold parentKey at hpk
          rw [List.dropLast_eq_take] at hpk
          exact hpk
      · rw [if_neg hfl, List.any_eq_true] at h
        obtain ⟨sub, hsubmem, hc⟩ := h
        have hsub2 : sub ∈ foldersAt (buildFolderTree downloads) k := by
          unfold foldersAt
          rw [hf]
          exact hsubmem
        obtain ⟨d2, hd2, i2, hi2, hk2, hs2⟩ :=
          foldersAt_buildFolderTree_sound downloads k sub hsub2
        have hseg2 := hwf d2 hd2 ((jsSplit d2.Name).getD i2 "")
          (getD_mem_of_lt (by omega))
        rw [hs2] at hseg2
        obtain ⟨d, hdm, he, j, hj, hjk⟩ := ih _ hc
        have hkne : joinKey k sub ≠ "" := joinKey_ne_empty k sub hseg2.1
        rcases Nat.eq_zero_or_pos j with rfl | hjpos
        · rw [List.take_zero] at hjk
          exact absurd hjk.symm hkne
        · obtain ⟨m, rfl⟩ : ∃ m, j = m + 1 := ⟨j - 1, by omega⟩
          have hsegs : ∀ seg ∈ jsSplit d.Name, seg ≠ "" :=
            fun seg hseg => (hwf d hdm seg hseg).1
          rw [joinSlash_take_succ (jsSplit d.Name) m (by omega) hsegs] at hjk
          have hsegm := hwf d hdm ((jsSplit d.Name).getD m "")
            (getD_mem_of_lt (by omega))
          obtain ⟨hkq, _⟩ := joinKey_inj hsegm.2 hseg2.2 hjk
          exact ⟨d, hdm, he, m, by omega, hkq⟩

/-! ### `checkNode` completeness and the fuel bound (towards C2) -/

theorem checkNode_file_base (downloads : List Download) (types : List String)
    (d : Download) (hd : d ∈ downloads) (he : eligibleFile types d = true)
    (fuel : Nat) :
    checkNode (buildFolderTree downloads) types (fuel + 1)
      (joinSlash ((jsSplit d.Name).take ((jsSplit d.Name).length - 1))) = true := by
  have hmem : d ∈ filesAt (buildFolderTree downloads)
      (joinSlash ((jsSplit d.Name).take ((jsSplit d.Name).length - 1))) := by
    rw [filesAt_buildFolderTree, List.mem_filter]
    refine ⟨hd, ?_⟩
    rw [decide_eq_true_iff]
    unfold parentKey
    rw [List.dropLast_eq_take]
  simp only [checkNode]
  split
  · rename_i hnone
    unfold filesAt at hmem
    rw [hnone] at hmem
    simp at hmem
  · rename_i node hf2
    have h1 : d ∈ node.files := by
      unfold filesAt at hmem
      rw [hf2] at hmem
      exact hmem
    rw [if_pos (List.any_eq_true.mpr ⟨d, h1, he⟩)]

theorem checkNode_step (downloads : List Download) (types : List String)
    (d : Download) (hd : d ∈ downloads)
    (hsegs : ∀ seg ∈ jsSplit d.Name, seg ≠ "")
    (i fuel : Nat) (hi : i + 1 < (jsSplit d.Name).length)
    (hrec : checkNode (buildFolderTree downloads) types fuel
      (joinSlash ((jsSplit d.Name).take (i + 1))) = true) :
    checkNode (buildFolderTree downloads) types (fuel + 1)
      (joinSlash ((jsSplit d.Name).take i)) = true := by
  have hfold := foldersAt_buildFolderTree_complete downloads d hd i hi
  simp only [checkNode]
  split
  · rename_i hnone
    unfold foldersAt at hfold
    rw [hnone] at hfold
    simp at hfold
  · rename_i node hf2
    have hsub : (jsSplit d.Name).getD i "" ∈ node.folders := by
      unfold foldersAt at hfold
      rw [hf2] at hfold
      exact hfold
    by_cases hfl : node.files.any (eligibleFile types) = true
    · rw [if_pos hfl]
    · rw [if_neg hfl, List.any_eq_true]
      refine ⟨(jsSplit d.Name).getD i "", hsub, ?_⟩
      rw [← joinSlash_take_succ (jsSplit d.Name) i (by omega) hsegs]
      exact hrec

theorem checkNode_complete (downloads : List Download) (types : List String)
    (d : Download) (hd : d ∈ downloads)
    (hsegs : ∀ seg ∈ jsSplit d.Name, seg ≠ "")
    (he : eligibleFile types d = true) :
    ∀ m i : Nat, i < (jsSplit d.Name).length →
      (jsSplit d.Name).length - 1 - i ≤ m →
      checkNode (buildFolderTree downloads) types (m + 1)
        (joinSlash ((jsSplit d.Name).take i)) = true := by
  intro m
  induction m with
  | zero =>
    intro i hi hm
    have hieq : i = (jsSplit d.Name).length - 1 := by omega
    rw [hieq]
    exact checkNode_file_base downloads types d hd he 0
  | succ m ih =>
    intro i hi hm
    by_cases hieq : i = (jsSplit d.Name).length - 1
    · rw [hieq]
      exact checkNode_file_base downloads types d hd he (m + 1)
    · exact checkNode_step downloads types d hd hsegs i (m + 1) (by omega)
        (ih (i + 1) (by omega) (by omega))

theorem joinKey_length_lt (p s : String) (hs : s ≠ "") :
    p.data.length < (joinKey p s).data.length := by
  unfold joinKey
  split
  · rename_i hp
    rw [hp]
    have hdata : s.data ≠ [] := fun hcon => hs (String.ext (by simp [hcon]))
    have := List.length_pos.mpr hdata
    simpa using this
  · simp [String.data_append]

theorem keyLen_step (l : List String) (hwf : ∀ seg ∈ l, seg ≠ "") (j : Nat)
    (hj : j < l.length) :
    (joinSlash (l.take j)).data.length <
      (joinSlash (l.take (j + 1))).data.length := by
  rw [joinSlash_take_succ l j hj hwf]
  exact joinKey_length_lt _ _ (hwf _ (getD_mem_of_lt hj))

theorem keyLen_strict (l : List String) (hwf : ∀ seg ∈ l, seg ≠ "") :
    ∀ b a : Nat, a < b → b < l.length + 1 →
      (joinSlash (l.take a)).data.length < (joinSlash (l.take b)).data.length := by
  intro b
  induction b with
  | zero =>
    intro a ha hb
    omega
  | succ b ih =>
    intro a ha hb
    rcases Nat.lt_or_ge a b with h2 | h2
    · calc (joinSlash (l.take a)).data.length
          < (joinSlash (l.take b)).data.length := ih a h2 (by omega)
        _ < (joinSlash (l.take (b + 1))).data.length := keyLen_step l hwf b (by omega)
    · have hab : a = b := by omega
      rw [hab]
      exact keyLen_step l hwf b (by omega)

theorem prefix_count_le (downloads : List Download) (d : Download)
    (hd : d ∈ downloads) (hsegs : ∀ seg ∈ jsSplit d.Name, seg ≠ "") :
    (jsSplit d.Name).length ≤ (buildFolderTree downloads).length := by
  have hnd : ((List.range (jsSplit d.Name).length).map
      (fun j => joinSlash ((jsSplit d.Name).take j))).Nodup := by
    apply List.Nodup.map_on ?inj (List.nodup_range _)
    intro a ha b hb hfe
    rw [List.mem_range] at ha hb
    by_contra hne
    rcases Nat.lt_or_ge a b with h | h
    · have := keyLen_strict (jsSplit d.Name) hsegs b a h (by omega)
      rw [hfe] at this
      omega
    · have hlt : b < a := by omega
      have := keyLen_strict (jsSplit d.Name) hsegs a b hlt (by omega)
      rw [hfe] at this
      omega
  have hsub : ((List.range (jsSplit d.Name).length).map
      (fun j => joinSlash ((jsSplit d.Name).take j))) ⊆
        treeKeys (buildFolderTree downloads) := by
    intro x hx
    rw [List.mem_map] at hx
    obtain ⟨j, hj, rfl⟩ := hx
    rw [List.mem_range] at hj
    rw [← treeFind_isSome_iff_mem]
    exact buildFolderTree_isSome_prefix downloads d hd j hj
  have hlen := List.Subperm.length_le (List.subperm_of_subset hnd hsub)
  rw [List.length_map, List.length_range] at hlen
  calc (jsSplit d.Name).length ≤ (treeKeys (buildFolderTree downloads)).length := hlen
    _ = (buildFolderTree downloads).length := List.length_map _ _

/-- C2: in browse mode, a child folder of the current path is listed
exactly when the folder's subtree contains at least one record of
positive length that passes the active type filter — the record's
segment-path passes through the child folder's key.  The pruning applies
even with no type filter active, since the zero-byte exclusion alone can
hide a folder: the single zero-byte record scenario hides folder `b`.
For the records `a/b/x.pdf` and `a/c/y.zip` with only the `ZIP` label
active, browsing `a` returns only folder `c`. -/
theorem C2_folder_pruning (downloads : List Download) (types : List String)
    (pathKey folderName : String) (hwf : wfDownloads downloads)
    (hf1 : folderName ≠ "") (hf2 : '/' ∉ folderName.data) :
    (folderName ∈ browseFolders (buildFolderTree downloads) types pathKey ↔
      ∃ d ∈ downloads, eligibleFile types d = true ∧
        ∃ i, i < (jsSplit d.Name).length ∧
          joinSlash ((jsSplit d.Name).take i) = joinKey pathKey folderName) ∧
    browseFolders (buildFolderTree scenC2) ["ZIP"] "a" = ["c"] ∧
    browseFolders (buildFolderTree scenZero) [] "a" = [] := by
  refine ⟨?_, by decide, by decide⟩
  constructor
  · intro hmem
    unfold browseFolders at hmem
    rw [List.mem_filter] at hmem
    obtain ⟨hmem1, hchk⟩ := hmem
    unfold folderHasMatchingFiles at hchk
    exact checkNode_sound downloads types hwf _ _ hchk
  · rintro ⟨d, hd, he, i, hi, hik⟩
    have hsegs : ∀ seg ∈ jsSplit d.Name, seg ≠ "" :=
      fun seg hseg => (hwf d hd seg hseg).1
    have hkne : joinKey pathKey folderName ≠ "" :=
      joinKey_ne_empty pathKey folderName hf1
    rcases Nat.eq_zero_or_pos i with rfl | hipos
    · rw [List.take_zero] at hik
      exact absurd hik.symm hkne
    obtain ⟨m, rfl⟩ : ∃ m, i = m + 1 := ⟨i - 1, by omega⟩
    rw [joinSlash_take_succ (jsSplit d.Name) m (by omega) hsegs] at hik
    have hsegm := hwf d hd ((jsSplit d.Name).getD m "") (getD_mem_of_lt (by omega))
    obtain ⟨hpq, hst⟩ := joinKey_inj hsegm.2 hf2 hik
    unfold browseFolders
    rw [List.mem_filter]
    constructor
    · rw [← hst, ← hpq]
      exact foldersAt_buildFolderTree_complete downloads d hd m (by omega)
    · unfold folderHasMatchingFiles
      rw [← hik, ← joinSlash_take_succ (jsSplit d.Name) m (by omega) hsegs]
      have hcount := prefix_count_le downloads d hd hsegs
      exact checkNode_mono (buildFolderTree downloads) types
        ((jsSplit d.Name).length - 1 - (m + 1) + 1)
        ((buildFolderTree downloads).length + 1) (by omega) _
        (checkNode_complete downloads types d hd hsegs he
          ((jsSplit d.Name).length - 1 - (m + 1)) (m + 1) (by omega) (by omega))

theorem C2_folder_pruning_witness :
    ("c" ∈ browseFolders (buildFolderTree scenC2) ["ZIP"] "a" ↔
      ∃ d ∈ scenC2, eligibleFile ["ZIP"] d = true ∧
        ∃ i, i < (jsSplit d.Name).length ∧
          joinSlash ((jsSplit d.Name).take i) = joinKey "a" "c") ∧
    browseFolders (buildFolderTree scenC2) ["ZIP"] "a" = ["c"] ∧
    browseFolders (buildFolderTree scenZero) [] "a" = [] :=
  C2_folder_pruning scenC2 ["ZIP"] "a" "c" (by unfold wfDownloads; decide)
    (by decide) (by decide)

/-! ## Verification of C9 (`matchFolders`) -/

theorem matchFoldersStep_none (radj : Regex) (pattern : String) :
    ∀ folders : List String,
      folders.foldl (matchFoldersStep radj pattern) none = none := by
  intro folders
  induction folders with
  | nil => rfl
  | cons f fs ih =>
    rw [List.foldl_cons]
    have hstep : matchFoldersStep radj pattern none f = none := rfl
    rw [hstep, ih]

theorem matchFoldersStep_fold_of_pat_none (radj : Regex) (pattern : String)
    (hpat : compileRegex pattern = none) :
    ∀ (folders : List String) (minit m : List String),
      folders.foldl (matchFoldersStep radj pattern) (some minit) = some m →
      m = minit := by
  intro folders
  induction folders with
  | nil =>
    intro minit m h
    injection h with h
    exact h.symm
  | cons f fs ih =>
    intro minit m h
    rw [List.foldl_cons] at h
    by_cases ht : regexTest radj f = true
    · have hstep : matchFoldersStep radj pattern (some minit) f = none := by
        unfold matchFoldersStep
        rw [Option.some_bind, if_pos ht, hpat]
      rw [hstep, matchFoldersStep_none] at h
      exact absurd h (by simp)
    · have hstep : matchFoldersStep radj pattern (some minit) f = some minit := by
        unfold matchFoldersStep
        rw [Option.some_bind, if_neg ht]
      rw [hstep] at h
      exact ih minit m h

theorem matchFoldersStep_fold_sound (radj rpat : Regex) (pattern : String)
    (hpat : compileRegex pattern = some rpat) :
    ∀ (folders : List String) (minit m : List String),
      folders.foldl (matchFoldersStep radj pattern) (some minit) = some m →
      ∀ x ∈ m, x ∈ minit ∨ ∃ folder ∈ folders, ∃ p : Nat × Nat,
        firstMatch rpat folder = some p ∧ x = strTake folder (p.1 + p.2) := by
  intro folders
  induction folders with
  | nil =>
    intro minit m h x hx
    injection h with h
    subst h
    exact Or.inl hx
  | cons f fs ih =>
    intro minit m h x hx
    rw [List.foldl_cons] at h
    cases hstep : matchFoldersStep radj pattern (some minit) f with
    | none =>
      rw [hstep, matchFoldersStep_none] at h
      exact absurd h (by simp)
    | some m1 =>
      rw [hstep] at h
      have hm1 : x ∈ m1 → x ∈ minit ∨ ∃ p : Nat × Nat,
          firstMatch rpat f = some p ∧ x = strTake f (p.1 + p.2) := by
        intro hx1
        unfold matchFoldersStep at hstep
        rw [Option.some_bind] at hstep
        split at hstep
        · split at hstep
          · simp at hstep
          · rename_i rpat2 hpat2
            rw [hpat] at hpat2
            injection hpat2 with hpat2
            subst hpat2
            split at hstep
            · injection hstep with h2
              subst h2
              exact Or.inl hx1
            · rename_i p hfm
              split at hstep
              · injection hstep with h2
                subst h2
                exact Or.inl hx1
              · injection hstep with h2
                subst h2
                rcases List.mem_append.mp hx1 with h3 | h3
                · exact Or.inl h3
                · rw [List.mem_singleton] at h3
                  exact Or.inr ⟨p, hfm, h3⟩
        · injection hstep with h2
          subst h2
          exact Or.inl hx1
      rcases ih m1 m h x hx with hx1 | ⟨g, hg, p, hp, hxe⟩
      · rcases hm1 hx1 with h2 | ⟨p, hp, hxe⟩
        · exact Or.inl h2
        · exact Or.inr ⟨f, List.mem_cons_self f fs, p, hp, hxe⟩
      · exact Or.inr ⟨g, List.mem_cons_of_mem f hg, p, hp, hxe⟩

theorem matchFoldersFallback_sound (rpat : Regex) :
    ∀ (ds : List Download) (minit : List String) (x : String),
      x ∈ ds.foldl (matchFoldersFallback rpat) minit →
      x ∈ minit ∨ ∃ d ∈ ds, regexTest rpat d.Name = true ∧
        x = parentKey d ∧ x ≠ "" := by
  intro ds
  induction ds with
  | nil =>
    intro minit x hx
    exact Or.inl hx
  | cons d ds ih =>
    intro minit x hx
    rw [List.foldl_cons] at hx
    rcases ih (matchFoldersFallback rpat minit d) x hx with h2 | ⟨d2, hd2, h3⟩
    · unfold matchFoldersFallback at h2
      by_cases ht : regexTest rpat d.Name = true
      · rw [if_pos ht] at h2
        by_cases hc : parentKey d ≠ "" ∧ parentKey d ∉ minit
        · rw [if_pos hc] at h2
          rcases List.mem_append.mp h2 with h3 | h3
          · exact Or.inl h3
          · rw [List.mem_singleton] at h3
            exact Or.inr ⟨d, List.mem_cons_self d ds, ht, h3,
              (by rw [h3]; exact hc.1)⟩
        · rw [if_neg hc] at h2
          exact Or.inl h2
      · rw [if_neg ht] at h2
        exact Or.inl h2
    · exact Or.inr ⟨d2, List.mem_cons_of_mem d hd2, h3⟩

/-- C9 counterexample: `matchFolders` does not return shortest matching
folder paths.  The adjusted pattern drops the `(?:/|$)` suffix whenever
the pattern merely contains a `$` character (here the escape `\$`, which
does not assert an end), and the returned entry is the match-truncated
prefix `folder.substring(0, match.index + match[0].length)`: for the
single record `a$b/f.txt` and pattern `\$`, the result is `a$`, which is
not one of the folder paths derivable from the record list. -/
theorem C9_match_folders_counterexample :
    matchFolders scenC9 "\\$" 10 "asc" = some ["a$"] ∧
    getAllFolderPaths scenC9 = ["a$b"] ∧
    "a$" ∉ getAllFolderPaths scenC9 := by decide

/-- C9 (amended): when `matchFolders` returns without a `SyntaxError` it
returns at most `limit` entries, sorted descending by code-point order
for `sortOrder = 'desc'` and ascending otherwise; the pattern itself
compiles, and every returned entry is either the prefix of a derivable
folder path truncated at the end of the first match of the unsuffixed
pattern, or — in the file fallback — the nonempty parent path of a
record whose full name matches the pattern.  The trailing `(?:/|$)`
anchor gives `a/b` but not `a/bc` for pattern `b`, and the fallback
returns `docs` for pattern `read` on the single record
`docs/readme.txt`. -/
theorem C9_match_folders_amended (downloads : List Download) (pattern : String)
    (limit : Nat) (sortOrder : String) (l : List String)
    (h : matchFolders downloads pattern limit sortOrder = some l) :
    l.length ≤ limit ∧
    (sortOrder = "desc" → List.Pairwise (fun a b => jsStrLe b a = true) l) ∧
    (sortOrder ≠ "desc" → List.Pairwise (fun a b => jsStrLe a b = true) l) ∧
    (∃ rpat, compileRegex pattern = some rpat ∧
      ∀ x ∈ l,
        (∃ folder ∈ getAllFolderPaths downloads, ∃ p : Nat × Nat,
          firstMatch rpat folder = some p ∧ x = strTake folder (p.1 + p.2)) ∨
        (∃ d ∈ downloads, regexTest rpat d.Name = true ∧
          x = parentKey d ∧ x ≠ "")) ∧
    matchFolders scenC9b "b" 10 "asc" = some ["a/b"] ∧
    matchFolders scenC9c "read" 10 "asc" = some ["docs"] := by
  unfold matchFolders at h
  split at h
  · exact absurd h (by simp)
  · rename_i radj hadj
    split at h
    · exact absurd h (by simp)
    · rename_i m0 hm0
      split at h
      · exact absurd h (by simp)
      · rename_i m hm
        injection h with h
        subst h
        refine ⟨List.length_take_le _ _, ?_, ?_, ?_, by decide, by decide⟩
        · intro hdesc
          unfold sortPaths
          rw [if_pos hdesc]
          letI : IsTotal String (fun a b : String => jsStrLe b a = true) :=
            ⟨fun a b => by
              rcases le_total b a with h2 | h2
              · exact Or.inl ((jsStrLe_iff_le b a).mpr h2)
              · exact Or.inr ((jsStrLe_iff_le a b).mpr h2)⟩
          letI : IsTrans String (fun a b : String => jsStrLe b a = true) :=
            ⟨fun a b c hab hbc => (jsStrLe_iff_le c a).mpr
              (le_trans ((jsStrLe_iff_le c b).mp hbc) ((jsStrLe_iff_le b a).mp hab))⟩
          exact List.Pairwise.sublist (List.take_sublist _ _)
            (List.sorted_insertionSort _ m)
        · intro hdesc
          unfold sortPaths
          rw [if_neg hdesc]
          letI : IsTotal String (fun a b : String => jsStrLe a b = true) :=
            ⟨fun a b => by
              rcases le_total a b with h2 | h2
              · exact Or.inl ((jsStrLe_iff_le a b).mpr h2)
              · exact Or.inr ((jsStrLe_iff_le b a).mpr h2)⟩
          letI : IsTrans String (fun a b : String => jsStrLe a b = true) :=
            ⟨fun a b c hab hbc => (jsStrLe_iff_le a c).mpr
              (le_trans ((jsStrLe_iff_le a b).mp hab) ((jsStrLe_iff_le b c).mp hbc))⟩
          exact List.Pairwise.sublist (List.take_sublist _ _)
            (List.sorted_insertionSort _ m)
        · cases hpc : compileRegex pattern with
          | none =>
            have hm0e := matchFoldersStep_fold_of_pat_none radj pattern hpc
              (getAllFolderPaths downloads) [] m0 hm0
            rw [hm0e] at hm
            simp [hpc] at hm
          | some rpat =>
            refine ⟨rpat, rfl, ?_⟩
            intro x hx
            have hxm : x ∈ m := by
              have hx1 : x ∈ sortPaths sortOrder m := List.mem_of_mem_take hx
              unfold sortPaths at hx1
              split at hx1
              · exact (List.mem_insertionSort _).mp hx1
              · exact (List.mem_insertionSort _).mp hx1
            split at hm
            · rename_i hlen
              split at hm
              · simp at hm
              · rename_i rpat2 hpat2
                rw [hpc] at hpat2
                injection hpat2 with hpat2
                subst hpat2
                injection hm with hm
                subst hm
                have hm0e : m0 = [] := List.length_eq_zero.mp hlen
                rw [hm0e] at hxm
                rcases matchFoldersFallback_sound rpat downloads [] x hxm with
                  h2 | h2
                · simp at h2
                · exact Or.inr h2
            · injection hm with hm
              subst hm
              rcases matchFoldersStep_fold_sound radj rpat pattern hpc
                  (getAllFolderPaths downloads) [] m0 hm0 x hxm with h2 | h2
              · simp at h2
              · exact Or.inl h2

theorem C9_match_folders_amended_witness :
    (["a$"] : List String).length ≤ 10 ∧
    ("asc" = "desc" → List.Pairwise (fun a b => jsStrLe b a = true) ["a$"]) ∧
    ("asc" ≠ "desc" → List.Pairwise (fun a b => jsStrLe a b = true) ["a$"]) ∧
    (∃ rpat, compileRegex "\\$" = some rpat ∧
      ∀ x ∈ ["a$"],
        (∃ folder ∈ getAllFolderPaths scenC9, ∃ p : Nat × Nat,
          firstMatch rpat folder = some p ∧ x = strTake folder (p.1 + p.2)) ∨
        (∃ d ∈ scenC9, regexTest rpat d.Name = true ∧
          x = parentKey d ∧ x ≠ "")) ∧
    matchFolders scenC9b "b" 10 "asc" = some ["a/b"] ∧
    matchFolders scenC9c "read" 10 "asc" = some ["docs"] :=
  C9_match_folders_amended scenC9 "\\$" 10 "asc" ["a$"] (by decide)

end BlobExplorer
